import Mathlib

/-!
# rclancey/cache: a shallow embedding of the cache engine and its two stores

Sources embedded here:

* `cache.go`     the engine (`CacheFunc`, `CacheRequest`, `CacheFuncJSON`,
                   `CacheRequestJSON`) over the `CacheStore` / `CacheFile` interfaces;
* `fs/cache.go`  the filesystem store (`FSCacheStore`, `FSCacheFile`);
* `s3/cache.go`  the object store (`S3CacheStore`, `S3CacheFile`).

Stateful code is written in state-passing style: a method with a pointer receiver takes
the receiver's fields and the backing world and returns the new ones.  Every engine call
also returns the list of interface calls it made (`Event`), so that statements such as
"Write is never called" are statements about that list.
-/

namespace GoCache

/-! ## Basic types -/

/-- A byte. -/
abbrev Byte := Fin 256

/-- Go strings that the code inspects are modelled as lists of characters. -/
abbrev Str := List Char

/-- Go `error` values occurring in the three source files.  `CacheFileExpired` and
`NotJSONData` are the two package-level sentinels of `cache.go`; `EOF` is `io.EOF`;
`notExist` is an error for which `os.IsNotExist` holds; `wrap` is `errors.Wrap`. -/
inductive Error where
  | EOF
  | CacheFileExpired
  | NotJSONData
  | notExist
  | other (code : Nat)
  | wrap (cause : Error) (msg : Str)
  deriving DecidableEq, Repr

/-- The `os.IsNotExist` test. -/
def IsNotExist : Error → Bool
  | .notExist => true
  | _ => false

/-! ## Strings: `hex.EncodeToString`, `strings.Split`, `strings.Join`, `path.Clean`, `path.Join` -/

/-- The table `hextable` of `encoding/hex`. -/
def hextable : List Char :=
  ['0', '1', '2', '3', '4', '5', '6', '7', '8', '9', 'a', 'b', 'c', 'd', 'e', 'f']

/-- One entry of `hextable`. -/
def hexDigit (n : Nat) : Char := hextable.getD n '0'

/-- The function `hex.EncodeToString`: two digits per byte, high nibble first. -/
def EncodeToString : List Byte → Str
  | [] => []
  | b :: bs => hexDigit (b.val / 16) :: hexDigit (b.val % 16) :: EncodeToString bs

/-- The function `strings.Split` for a one-character separator. -/
def Split (sep : Char) : Str → List Str
  | [] => [[]]
  | c :: cs =>
    if c = sep then [] :: Split sep cs
    else
      match Split sep cs with
      | [] => [[c]]
      | h :: t => (c :: h) :: t

/-- The function `strings.Join` for the separator `"/"`. -/
def joinSlash : List Str → Str
  | [] => []
  | [a] => a
  | a :: b :: rest => a ++ '/' :: joinSlash (b :: rest)

/-- One step of `path.Clean` on the stack of kept elements (top first): `..` removes the
element before it, is dropped at the root, and is kept at the start of a relative path. -/
def cleanStep (rooted : Bool) (stk : List Str) (c : Str) : List Str :=
  if c = ['.', '.'] then
    match stk with
    | [] => if rooted then [] else [c]
    | top :: rest => if top = ['.', '.'] then c :: stk else rest
  else c :: stk

/-- The function `path.Clean`: empty and `.` elements are dropped, `..` is resolved, a
rooted path stays rooted and an empty result is `"."`. -/
def Clean (p : Str) : Str :=
  if p = [] then ['.']
  else
    let rooted := p.head? = some '/'
    let comps := (Split '/' p).filter (fun c => c ≠ [] ∧ c ≠ ['.'])
    let body := joinSlash (comps.foldl (cleanStep rooted) []).reverse
    if rooted then '/' :: body
    else if body = [] then ['.'] else body

/-- The function `path.Join`: empty elements are ignored, the rest joined by `/` and
cleaned; with nothing to join the result is empty. -/
def Join (elem : List Str) : Str :=
  let parts := elem.filter (fun e => e ≠ [])
  if parts = [] then [] else Clean (joinSlash parts)

/-! ## The interfaces of `cache.go` -/

/-- What a `Read(p)` call returns: the count `n`, the bytes stored in `p[0:n]`, the error. -/
structure ReadResult where
  n : Int
  data : List Byte
  err : Option Error

/-- The interfaces `CacheStore` and `CacheFile` over a backing world `W` and an entry
state `H` (the fields of the struct behind the `CacheFile` value).  `Read` receives
`len(p)`; `Write` returns the count and the error. -/
structure CacheStore (W H : Type) where
  Open : Str → Int → W → Except Error H × W
  Delete : Str → W → Option Error × W
  Read : Nat → H → W → ReadResult × H × W
  Write : List Byte → H → W → (Int × Option Error) × H × W
  Close : H → W → Option Error × H × W
  Valid : H → Bool

/-- An `*http.Request`: `URL` is the text `req.URL.String()`. -/
structure Request where
  Method : Str
  URL : Str
  Header : List (Str × List Str)
  Body : List Byte
  deriving DecidableEq

/-- An `*http.Response`: `Body` is what reading the body to its end yields. -/
structure Response where
  StatusCode : Int
  Header : List (Str × List Str)
  Body : List Byte × Option Error
  deriving DecidableEq

/-- The method `Header.Get` for a canonical key: the first value, or the empty string. -/
def HeaderGet (h : List (Str × List Str)) (key : Str) : Str :=
  match h.lookup key with
  | some (v :: _) => v
  | _ => []

/-- The struct `Cache`: a store and an HTTP client (`Do`, one synchronous call). -/
structure Cache (W H : Type) where
  store : CacheStore W H
  client : Request → Option Response × Option Error

/-- What the header parser of `http.ReadResponse` says about the bytes read so far. -/
inductive ParseStep where
  | more
  | done (res : Response)
  | fail (e : Error)

/-- The library functions the engine calls and that are taken as given: `sha1.Sum` on the
bytes of a string (a `[20]byte`), the parser behind `http.ReadResponse`,
`httputil.DumpResponse(res, true)`, and `unicode.ToLower` outside ASCII. -/
structure Stdlib where
  Sum : Str → { d : List Byte // d.length = 20 }
  parseResponse : List Byte → ParseStep
  DumpResponse : Response → List Byte × Option Error
  lowerTable : Char → Char

/-- The functions `json.Unmarshal(data, obj)` (which may change `obj` even when it fails)
and `json.Marshal(obj)` for a target of type `τ`. -/
structure JSON (τ : Type) where
  Unmarshal : List Byte → τ → τ × Option Error
  Marshal : τ → List Byte × Option Error

/-- The calls an engine function makes, in order. -/
inductive Event where
  | Open (name : Str) (cacheTime : Int)
  | Valid
  | Read
  | Write (data : List Byte)
  | Close
  | Produce
  | Do
  | ReadBody
  | Unmarshal (data : List Byte)
  | BodyClose
  deriving DecidableEq, Repr

/-- A normal return of an engine function: the returned value and error, the backing
world afterwards and the calls made. -/
structure Ret (α W : Type) where
  val : α
  err : Option Error
  world : W
  trace : List Event

/-- The constant `bytes.MinRead`: the buffer space `ioutil.ReadAll` offers to each `Read`. -/
def MinRead : Nat := 512

/-- The function `ioutil.ReadAll(cf)`: `Read` is called until it returns an error; `io.EOF`
is reported as success.  `none` stands for a call that does not return normally: the loop
does not end within `fuel` reads, or a `Read` returns a negative count (a panic). -/
def ReadAll {W H : Type} (Read : Nat → H → W → ReadResult × H × W) :
    Nat → List Byte → H → W → Option ((List Byte × Option Error) × H × W)
  | 0, _, _, _ => none
  | fuel + 1, acc, cf, w =>
    match Read MinRead cf w with
    | (r, cf1, w1) =>
      if r.n < 0 then none
      else
        match r.err with
        | some .EOF => some ((acc ++ r.data, none), cf1, w1)
        | some e => some ((acc ++ r.data, some e), cf1, w1)
        | none => ReadAll Read fuel (acc ++ r.data) cf1 w1

/-- The call `http.ReadResponse(bufio.NewReader(cf), req)`: the buffered reader fills
4096 bytes at a time until the header parser has a verdict; a read error with the header
still incomplete is a failure.  The result is the parsed response or `none` (an error);
the outer `none` is a call that does not return normally, as for `ReadAll`. -/
def ReadResponse {W H : Type} (parse : List Byte → ParseStep)
    (Read : Nat → H → W → ReadResult × H × W) :
    Nat → List Byte → H → W → Option (Option Response × H × W)
  | 0, _, _, _ => none
  | fuel + 1, acc, cf, w =>
    match parse acc with
    | .done res => some (some res, cf, w)
    | .fail _ => some (none, cf, w)
    | .more =>
      match Read 4096 cf w with
      | (r, cf1, w1) =>
        if r.n < 0 then none
        else
          match r.err with
          | some _ =>
            match parse (acc ++ r.data) with
            | .done res => some (some res, cf1, w1)
            | _ => some (none, cf1, w1)
          | none => ReadResponse parse Read fuel (acc ++ r.data) cf1 w1

/-! ## The engine of `cache.go` -/

/-- The deferred `cf.Close()` followed by the return of `(val, err)`: the error of `Close`
is dropped. -/
def closeAndReturn {α W H : Type} (S : CacheStore W H) (cf : H) (w : W) (val : α)
    (err : Option Error) (tr : List Event) : Ret α W :=
  match S.Close cf w with
  | (_, _, w1) => { val := val, err := err, world := w1, trace := tr ++ [Event.Close] }

/-- Lines 63-71 of `CacheFunc`: the producer is called and its bytes written. -/
def funcMiss {W H : Type} (S : CacheStore W H) (f : Unit → List Byte × Option Error)
    (cf : H) (w : W) (tr : List Event) : Ret (List Byte) W :=
  match f () with
  | (data, some e) => closeAndReturn S cf w data (some e) (tr ++ [Event.Produce])
  | (data, none) =>
    match S.Write data cf w with
    | ((_, some e), cf1, w1) =>
      closeAndReturn S cf1 w1 data (some e) (tr ++ [Event.Produce, Event.Write data])
    | ((_, none), cf1, w1) =>
      closeAndReturn S cf1 w1 data none (tr ++ [Event.Produce, Event.Write data])

/-- The method `Cache.CacheFunc`. -/
def CacheFunc {W H : Type} (c : Cache W H) (fuel : Nat) (f : Unit → List Byte × Option Error)
    (name : Str) (cacheTime : Int) (w : W) : Option (Ret (List Byte) W) :=
  match c.store.Open name cacheTime w with
  | (.error e, w1) =>
    some { val := [], err := some e, world := w1, trace := [Event.Open name cacheTime] }
  | (.ok cf, w1) =>
    if c.store.Valid cf then
      match ReadAll c.store.Read fuel [] cf w1 with
      | none => none
      | some ((data, none), cf2, w2) =>
        some (closeAndReturn c.store cf2 w2 data none
          [Event.Open name cacheTime, Event.Valid, Event.Read])
      | some ((_, some _), cf2, w2) =>
        some (funcMiss c.store f cf2 w2 [Event.Open name cacheTime, Event.Valid, Event.Read])
    else some (funcMiss c.store f cf w1 [Event.Open name cacheTime, Event.Valid])

/-- The key `CacheRequest` opens: lines 75-77. -/
def requestKey (L : Stdlib) (req : Request) : Str :=
  let code := EncodeToString (L.Sum (req.Method ++ ' ' :: req.URL)).val
  Join [code.take 2, (code.drop 2).take 2, code.drop 4]

/-- Lines 89-104 of `CacheRequest`: the live call.  When the client returns neither a
response nor an error, line 94 dereferences nil for a GET request (`none`); for any other
method the `&&` stops at the method test and `(nil, nil)` is returned after the deferred
`Close`. -/
def requestLive {W H : Type} (c : Cache W H) (L : Stdlib) (req : Request) (cf : H) (w : W)
    (tr : List Event) : Option (Ret (Option Response) W) :=
  match c.client req with
  | (res, some e) => some (closeAndReturn c.store cf w res (some e) (tr ++ [Event.Do]))
  | (none, none) =>
    if req.Method = ['G', 'E', 'T'] then none
    else some (closeAndReturn c.store cf w none none (tr ++ [Event.Do]))
  | (some res, none) =>
    if req.Method = ['G', 'E', 'T'] ∧ res.StatusCode = 200 then
      match L.DumpResponse res with
      | (_, some e) => some (closeAndReturn c.store cf w (some res) (some e) (tr ++ [Event.Do]))
      | (data, none) =>
        match c.store.Write data cf w with
        | ((_, some e), cf1, w1) =>
          some (closeAndReturn c.store cf1 w1 (some res) (some e)
            (tr ++ [Event.Do, Event.Write data]))
        | ((_, none), cf1, w1) =>
          some (closeAndReturn c.store cf1 w1 (some res) none
            (tr ++ [Event.Do, Event.Write data]))
    else some (closeAndReturn c.store cf w (some res) none (tr ++ [Event.Do]))

/-- The method `Cache.CacheRequest`.  On a hit (line 86) the function returns before the
`defer cf.Close()` of line 89 is reached. -/
def CacheRequest {W H : Type} (c : Cache W H) (L : Stdlib) (fuel : Nat) (req : Request)
    (cacheTime : Int) (w : W) : Option (Ret (Option Response) W) :=
  let name := requestKey L req
  match c.store.Open name cacheTime w with
  | (.error e, w1) =>
    some { val := none, err := some e, world := w1, trace := [Event.Open name cacheTime] }
  | (.ok cf, w1) =>
    if c.store.Valid cf then
      match ReadResponse L.parseResponse c.store.Read fuel [] cf w1 with
      | none => none
      | some (some res, _, w2) =>
        some { val := some res, err := none, world := w2,
               trace := [Event.Open name cacheTime, Event.Valid, Event.Read] }
      | some (none, cf2, w2) =>
        requestLive c L req cf2 w2 [Event.Open name cacheTime, Event.Valid, Event.Read]
    else requestLive c L req cf w1 [Event.Open name cacheTime, Event.Valid]

/-- Lines 149-161 of `CacheFuncJSON`. -/
def funcJSONMiss {W H τ : Type} (S : CacheStore W H) (J : JSON τ) (f : τ → τ × Option Error)
    (obj : τ) (cf : H) (w : W) (tr : List Event) : Ret τ W :=
  match f obj with
  | (obj1, some e) => closeAndReturn S cf w obj1 (some e) (tr ++ [Event.Produce])
  | (obj1, none) =>
    match J.Marshal obj1 with
    | (_, some e) => closeAndReturn S cf w obj1 (some e) (tr ++ [Event.Produce])
    | (data, none) =>
      match S.Write data cf w with
      | ((_, some e), cf1, w1) =>
        closeAndReturn S cf1 w1 obj1 (some e) (tr ++ [Event.Produce, Event.Write data])
      | ((_, none), cf1, w1) =>
        closeAndReturn S cf1 w1 obj1 none (tr ++ [Event.Produce, Event.Write data])

/-- The method `Cache.CacheFuncJSON`; the returned value is the target object afterwards. -/
def CacheFuncJSON {W H τ : Type} (c : Cache W H) (J : JSON τ) (fuel : Nat)
    (f : τ → τ × Option Error) (obj : τ) (name : Str) (cacheTime : Int) (w : W) :
    Option (Ret τ W) :=
  match c.store.Open name cacheTime w with
  | (.error e, w1) =>
    some { val := obj, err := some e, world := w1, trace := [Event.Open name cacheTime] }
  | (.ok cf, w1) =>
    if c.store.Valid cf then
      match ReadAll c.store.Read fuel [] cf w1 with
      | none => none
      | some ((data, none), cf2, w2) =>
        match J.Unmarshal data obj with
        | (obj1, none) =>
          some (closeAndReturn c.store cf2 w2 obj1 none
            [Event.Open name cacheTime, Event.Valid, Event.Read, Event.Unmarshal data])
        | (obj1, some _) =>
          some (funcJSONMiss c.store J f obj1 cf2 w2
            [Event.Open name cacheTime, Event.Valid, Event.Read, Event.Unmarshal data])
      | some ((_, some _), cf2, w2) =>
        some (funcJSONMiss c.store J f obj cf2 w2
          [Event.Open name cacheTime, Event.Valid, Event.Read])
    else some (funcJSONMiss c.store J f obj cf w1 [Event.Open name cacheTime, Event.Valid])

/-- The function `unicode.ToLower`: ASCII letters directly, other runes by the table. -/
def toLowerRune (tbl : Char → Char) (c : Char) : Char :=
  if c.toNat ≤ 127 then
    if 65 ≤ c.toNat ∧ c.toNat ≤ 90 then Char.ofNat (c.toNat + 32) else c
  else tbl c

/-- The function `strings.ToLower`. -/
def ToLower (tbl : Char → Char) (s : Str) : Str := s.map (toLowerRune tbl)

/-- The three cases of the `switch` of line 174. -/
def jsonTypes : List Str :=
  ["application/json".data, "text/json".data, "application/javascript".data]

/-- Line 172: the value `ct` computed from the `Content-Type` header value. -/
def contentType (L : Stdlib) (h : Str) : Str :=
  ToLower L.lowerTable ((Split ';' h).headD [])

/-- Lines 166-181 of `CacheRequestJSON`, after `CacheRequest` has returned `(res, err)`
with the world `w` and the calls `tr`. -/
def requestJSONTail {W τ : Type} (L : Stdlib) (J : JSON τ) (obj : τ)
    (res : Option Response) (err : Option Error) (w : W) (tr : List Event) :
    Option (Ret τ W) :=
  let deferred := if res.isSome then [Event.BodyClose] else []
  match err, res with
  | some e, _ => some { val := obj, err := some e, world := w, trace := tr ++ deferred }
  | none, none => none
  | none, some r =>
    if contentType L (HeaderGet r.Header "Content-Type".data) ∈ jsonTypes then
      match r.Body with
      | (_, some e) =>
        some { val := obj, err := some e, world := w,
               trace := tr ++ [Event.ReadBody] ++ deferred }
      | (data, none) =>
        match J.Unmarshal data obj with
        | (obj1, e) =>
          some { val := obj1, err := e, world := w,
                 trace := tr ++ [Event.ReadBody, Event.Unmarshal data] ++ deferred }
    else some { val := obj, err := some Error.NotJSONData, world := w, trace := tr ++ deferred }

/-- The method `Cache.CacheRequestJSON`; the returned value is the target object
afterwards. -/
def CacheRequestJSON {W H τ : Type} (c : Cache W H) (L : Stdlib) (J : JSON τ) (fuel : Nat)
    (req : Request) (obj : τ) (cacheTime : Int) (w : W) : Option (Ret τ W) :=
  match CacheRequest c L fuel req cacheTime w with
  | none => none
  | some r => requestJSONTail L J obj r.val r.err r.world r.trace

/-! ## The filesystem store of `fs/cache.go` -/

/-- A file: its bytes and its modification time (nanoseconds). -/
structure FileData where
  data : List Byte
  modTime : Int
  deriving DecidableEq, Repr

/-- The file operations the store performs; each may be made to fail by the world. -/
inductive FSOp where
  | OpenLocked (fn : Str)
  | Stat
  | Seek
  | Truncate
  | Write
  | Read
  | Close
  | Remove
  deriving DecidableEq

/-- The world of the filesystem store: the files by path, the clock, and which file
operations fail. -/
structure FSWorld where
  files : Str → Option FileData
  now : Int
  fault : FSOp → Option Error

/-- A `*fsutil.LockedFile`: the path it was opened on and the file offset. -/
structure LockedFile where
  name : Str
  offset : Nat
  deriving DecidableEq, Repr

/-- The struct `FSCacheFile`. -/
structure FSCacheFile where
  f : LockedFile
  expired : Bool
  reset : Bool
  deriving DecidableEq, Repr

/-- The files after `fn` is set to `fd`. -/
def setFile (files : Str → Option FileData) (fn : Str) (fd : FileData) : Str → Option FileData :=
  fun p => if p = fn then some fd else files p

/-- The call `fsutil.OpenLocked(fn, O_RDWR|O_CREATE, 0600)`: the file is created empty
when absent and the offset is 0. -/
def OpenLocked (fn : Str) (w : FSWorld) : Except Error LockedFile × FSWorld :=
  match w.fault (FSOp.OpenLocked fn) with
  | some e => (.error e, w)
  | none =>
    match w.files fn with
    | some _ => (.ok { name := fn, offset := 0 }, w)
    | none =>
      (.ok { name := fn, offset := 0 },
        { w with files := setFile w.files fn (FileData.mk [] w.now) })

/-- The call `f.Stat()`: size and modification time. -/
def Stat (f : LockedFile) (w : FSWorld) : Except Error (Nat × Int) :=
  match w.fault FSOp.Stat with
  | some e => .error e
  | none =>
    match w.files f.name with
    | some fd => .ok (fd.data.length, fd.modTime)
    | none => .error Error.notExist

/-- The bytes of a file after `data` is written at offset `off` (a gap is zero-filled). -/
def writeAt (old : List Byte) (off : Nat) (data : List Byte) : List Byte :=
  old.take off ++ List.replicate (off - old.length) 0 ++ data ++ old.drop (off + data.length)

/-- The bytes of the file behind `f` (none when it has been removed). -/
def fileBytes (f : LockedFile) (w : FSWorld) : List Byte :=
  match w.files f.name with
  | some fd => fd.data
  | none => []

/-- The call `f.Read(p)` with `len(p) = n`. -/
def fileRead (n : Nat) (f : LockedFile) (w : FSWorld) : ReadResult × LockedFile :=
  match w.fault FSOp.Read with
  | some e => ({ n := 0, data := [], err := some e }, f)
  | none =>
    let chunk := ((fileBytes f w).drop f.offset).take n
    if n = 0 then ({ n := 0, data := [], err := none }, f)
    else if chunk = [] then ({ n := 0, data := [], err := some Error.EOF }, f)
    else ({ n := chunk.length, data := chunk, err := none },
          { f with offset := f.offset + chunk.length })

/-- The call `f.Write(data)`: the bytes go to the current offset, which advances. -/
def fileWrite (data : List Byte) (f : LockedFile) (w : FSWorld) :
    (Int × Option Error) × LockedFile × FSWorld :=
  match w.fault FSOp.Write with
  | some e => ((0, some e), f, w)
  | none =>
    if data = [] then ((0, none), f, w)
    else
      let fd : FileData := { data := writeAt (fileBytes f w) f.offset data, modTime := w.now }
      ((data.length, none), { f with offset := f.offset + data.length },
        { w with files := setFile w.files f.name fd })

/-- The method `FSCacheFile.Read`. -/
def FSCacheFile.Read (n : Nat) (cf : FSCacheFile) (w : FSWorld) :
    ReadResult × FSCacheFile × FSWorld :=
  if cf.expired then ({ n := -1, data := [], err := some Error.CacheFileExpired }, cf, w)
  else
    match fileRead n cf.f w with
    | (r, f1) => (r, { cf with f := f1 }, w)

/-- The text of the `errors.Wrap` calls of `FSCacheFile.Write`. -/
def resetMsg : Str := "error resetting cache file".data

/-- The method `FSCacheFile.Write`. -/
def FSCacheFile.Write (data : List Byte) (cf : FSCacheFile) (w : FSWorld) :
    (Int × Option Error) × FSCacheFile × FSWorld :=
  if ¬ cf.reset then
    match w.fault FSOp.Seek with
    | some e => ((-1, some (Error.wrap e resetMsg)), cf, w)
    | none =>
      match w.fault FSOp.Truncate with
      | some e => ((-1, some (Error.wrap e resetMsg)), { cf with f := { cf.f with offset := 0 } }, w)
      | none =>
        let f1 : LockedFile := { cf.f with offset := 0 }
        let w1 : FSWorld :=
          { w with files := setFile w.files cf.f.name (FileData.mk [] w.now) }
        match fileWrite data f1 w1 with
        | (r, f2, w2) => (r, { cf with f := f2, reset := true }, w2)
  else
    match fileWrite data cf.f w with
    | (r, f2, w2) => (r, { cf with f := f2 }, w2)

/-- The method `FSCacheFile.Close`. -/
def FSCacheFile.Close (cf : FSCacheFile) (w : FSWorld) : Option Error × FSCacheFile × FSWorld :=
  (w.fault FSOp.Close, cf, w)

/-- Modelled from the spec: the method `Valid` of `FSCacheFile`, which `fs/cache.go` does
not define; the validity flag fixed at open time is the negation of `expired`. -/
def FSCacheFile.Valid (cf : FSCacheFile) : Bool := !cf.expired

/-- The path `filepath.Join(cs.root, filepath.FromSlash(cacheFile))`. -/
def fsPath (root cacheFile : Str) : Str := Join [root, cacheFile]

/-- The method `FSCacheStore.Open`; `time.Now()` is the clock of the world. -/
def FSCacheStore.Open (root : Str) (cacheFile : Str) (cacheTime : Int) (w : FSWorld) :
    Except Error FSCacheFile × FSWorld :=
  match OpenLocked (fsPath root cacheFile) w with
  | (.error e, w1) => (.error e, w1)
  | (.ok f, w1) =>
    let cf : FSCacheFile := { f := f, expired := true, reset := false }
    if cacheTime = 0 then (.ok cf, w1)
    else if cacheTime < 0 then (.ok { cf with expired := false }, w1)
    else
      match Stat f w1 with
      | .error e => if IsNotExist e then (.ok cf, w1) else (.error e, w1)
      | .ok (size, modTime) =>
        if size > 0 then
          if modTime > w1.now + -1 * cacheTime then (.ok { cf with expired := false }, w1)
          else (.ok cf, w1)
        else (.ok cf, w1)

/-- The method `FSCacheStore.Delete`. -/
def FSCacheStore.Delete (root : Str) (cacheFile : Str) (w : FSWorld) : Option Error × FSWorld :=
  match w.fault FSOp.Remove with
  | some e => (some e, w)
  | none =>
    match w.files (fsPath root cacheFile) with
    | none => (some Error.notExist, w)
    | some _ =>
      (none, { w with files := fun p => if p = fsPath root cacheFile then none else w.files p })

/-- The filesystem store as a `CacheStore`. -/
def FSCacheStore (root : Str) : CacheStore FSWorld FSCacheFile where
  Open := FSCacheStore.Open root
  Delete := FSCacheStore.Delete root
  Read := FSCacheFile.Read
  Write := FSCacheFile.Write
  Close := FSCacheFile.Close
  Valid := FSCacheFile.Valid

/-! ## The object store of `s3/cache.go` -/

/-- A stored object, and equally a `*s3.GetObjectOutput`: the body, the content encoding
and the time of last modification. -/
structure S3Object where
  Body : List Byte
  ContentEncoding : Option Str
  LastModified : Int
  deriving DecidableEq, Repr

/-- The world of the object store: the objects by bucket and key, the clock, and whether
the remote calls fail in transport. -/
structure S3World where
  objects : Str → Str → Option S3Object
  now : Int
  getErr : Option Error
  putErr : Option Error
  delErr : Option Error

/-- A byte stream being read: the bytes left and the error that ends it (`none`: `io.EOF`). -/
structure Stream where
  rest : List Byte
  fin : Option Error
  deriving DecidableEq, Repr

/-- The package `compress/gzip`, taken as given: what a writer has produced once closed,
the reader made by `gzip.NewReader` (`none` when the header is refused) and what is left
of a stream after a refused header. -/
structure Gzip where
  compress : List Byte → List Byte
  NewReader : List Byte → Option Stream
  unread : List Byte → List Byte

/-- The struct `S3CacheFile`: `w` holds the bytes given to the gzip writer so far (the
buffer `out` is their compressed form), `r` the reader once a read has happened. -/
structure S3CacheFile where
  bucket : Str
  key : Str
  obj : Option S3Object
  r : Option Stream
  w : Option (List Byte)
  deriving DecidableEq, Repr

/-- The remote call `GetObject`, with the optional `If-Modified-Since` time. -/
def GetObject (w : S3World) (bucket key : Str) (since : Option Int) : Except Error S3Object :=
  match w.getErr with
  | some e => .error e
  | none =>
    match w.objects bucket key with
    | none => .error (Error.other 404)
    | some o =>
      match since with
      | none => .ok o
      | some t => if o.LastModified > t then .ok o else .error (Error.other 304)

/-- The remote call `PutObject`: a full overwrite of the object. -/
def PutObject (w : S3World) (bucket key : Str) (body : List Byte) (enc : Str) :
    Option Error × S3World :=
  match w.putErr with
  | some e => (some e, w)
  | none =>
    let o : S3Object := { Body := body, ContentEncoding := some enc, LastModified := w.now }
    (none, { w with objects := fun b k => if b = bucket ∧ k = key then some o else w.objects b k })

/-- The value `"gzip"`. -/
def gzipName : Str := "gzip".data

/-- A read of at most `n` bytes from a stream. -/
def Stream.read (n : Nat) (s : Stream) : ReadResult × Stream :=
  if n = 0 then ({ n := 0, data := [], err := none }, s)
  else if s.rest = [] then
    ({ n := 0, data := [], err := some (s.fin.getD Error.EOF) }, s)
  else
    ({ n := (s.rest.take n).length, data := s.rest.take n, err := none },
      { s with rest := s.rest.drop n })

/-- The reader `S3CacheFile.Read` sets up on the first read (lines 33-43). -/
def S3CacheFile.reader (gz : Gzip) (o : S3Object) : Stream :=
  if o.ContentEncoding = some gzipName then
    match gz.NewReader o.Body with
    | some s => s
    | none => { rest := gz.unread o.Body, fin := none }
  else { rest := o.Body, fin := none }

/-- The method `S3CacheFile.Read`. -/
def S3CacheFile.Read (gz : Gzip) (n : Nat) (cf : S3CacheFile) (w : S3World) :
    ReadResult × S3CacheFile × S3World :=
  match cf.obj with
  | none => ({ n := -1, data := [], err := some Error.CacheFileExpired }, cf, w)
  | some o =>
    let s := match cf.r with
      | some s => s
      | none => S3CacheFile.reader gz o
    match s.read n with
    | (res, s1) => (res, { cf with r := some s1 }, w)

/-- The method `S3CacheFile.Write`: the bytes go to the gzip writer over the buffer. -/
def S3CacheFile.Write (data : List Byte) (cf : S3CacheFile) (w : S3World) :
    (Int × Option Error) × S3CacheFile × S3World :=
  ((data.length, none), { cf with w := some ((cf.w.getD []) ++ data) }, w)

/-- The method `S3CacheFile.Close`: when a write occurred the compressed buffer is
uploaded with the encoding `gzip`, and the error of the upload returned. -/
def S3CacheFile.Close (gz : Gzip) (cf : S3CacheFile) (w : S3World) :
    Option Error × S3CacheFile × S3World :=
  match cf.w with
  | some plain =>
    match PutObject w cf.bucket cf.key (gz.compress plain) gzipName with
    | (e, w1) => (e, cf, w1)
  | none => (none, cf, w)

/-- Modelled from the spec: the method `Valid` of `S3CacheFile`, which `s3/cache.go` does
not define; the entry is valid when the conditional fetch attached an object. -/
def S3CacheFile.Valid (cf : S3CacheFile) : Bool := cf.obj.isSome

/-- The method `S3CacheStore.Open`. -/
def S3CacheStore.Open (bucket : Str) (cacheFile : Str) (cacheTime : Int) (w : S3World) :
    Except Error S3CacheFile × S3World :=
  let cf : S3CacheFile := { bucket := bucket, key := cacheFile, obj := none, r := none, w := none }
  let since := if cacheTime ≥ 0 then some (w.now + -1 * cacheTime) else none
  match GetObject w bucket cacheFile since with
  | .ok res => (.ok { cf with obj := some res }, w)
  | .error _ => (.ok cf, w)

/-- The method `S3CacheStore.Delete`. -/
def S3CacheStore.Delete (bucket : Str) (cacheFile : Str) (w : S3World) : Option Error × S3World :=
  match w.delErr with
  | some e => (some e, w)
  | none =>
    (none, { w with objects := fun b k => if b = bucket ∧ k = cacheFile then none else w.objects b k })

/-- The object store as a `CacheStore`. -/
def S3CacheStore (gz : Gzip) (bucket : Str) : CacheStore S3World S3CacheFile where
  Open := S3CacheStore.Open bucket
  Delete := S3CacheStore.Delete bucket
  Read := S3CacheFile.Read gz
  Write := S3CacheFile.Write
  Close := S3CacheFile.Close gz
  Valid := S3CacheFile.Valid

/-! ## The two stores together -/

/-- The stores of the repository. -/
inductive Backend where
  | fs (root : Str)
  | s3 (gz : Gzip) (bucket : Str)

/-- The backing world of a store. -/
def Backend.World : Backend → Type
  | .fs _ => FSWorld
  | .s3 _ _ => S3World

/-- The entry state of a store. -/
def Backend.Entry : Backend → Type
  | .fs _ => FSCacheFile
  | .s3 _ _ => S3CacheFile

/-- What a store keeps under a name. -/
def Backend.Stored : Backend → Type
  | .fs _ => FileData
  | .s3 _ _ => S3Object

/-- The `CacheStore` of a store. -/
def Backend.store : (b : Backend) → CacheStore b.World b.Entry
  | .fs root => FSCacheStore root
  | .s3 gz bucket => S3CacheStore gz bucket

/-- The content stored under a name: the file at the path the name resolves to, or the
object under the key. -/
def Backend.stored : (b : Backend) → b.World → Str → Option b.Stored
  | .fs root, w, name => w.files (fsPath root name)
  | .s3 _ bucket, w, name => w.objects bucket name

/-- The entry has no write pending: closing it will not change what is stored. -/
def Backend.quiet : (b : Backend) → b.Entry → Prop
  | .fs _, _ => True
  | .s3 _ _, cf => cf.w = none

/-! ## Sessions on a store -/

/-- The world with the clock reading `t`. -/
def FSWorld.atTime (w : FSWorld) (t : Int) : FSWorld := { w with now := t }

/-- No file operation other than `Close` fails. -/
def FSWorld.reliable (w : FSWorld) : Prop := ∀ op, op ≠ FSOp.Close → w.fault op = none

/-- One session on a key of the filesystem store: `Open` at time `topen`, `Write(d)` at
time `t0`, `Close` at time `tclose`.  The result is the world afterwards, or `none` when
`Open` or `Write` returns an error. -/
def fsWriteSession (root key : Str) (ttl0 topen t0 tclose : Int) (d : List Byte)
    (w : FSWorld) : Option FSWorld :=
  match (FSCacheStore root).Open key ttl0 (w.atTime topen) with
  | (.error _, _) => none
  | (.ok cf0, wa) =>
    match (FSCacheStore root).Write d cf0 (wa.atTime t0) with
    | ((_, some _), _, _) => none
    | ((_, none), cf1, wb) => some ((FSCacheStore root).Close cf1 (wb.atTime tclose)).2.2

/-- One session on a key with two writes: `Open`, `Write(a)`, `Write(b)`, `Close`.  The
result is the world afterwards, or `none` when `Open` or a `Write` returns an error. -/
def writeTwice {W H : Type} (S : CacheStore W H) (key : Str) (ttl : Int) (a b : List Byte)
    (w : W) : Option W :=
  match S.Open key ttl w with
  | (.error _, _) => none
  | (.ok cf, w1) =>
    match S.Write a cf w1 with
    | ((_, some _), _, _) => none
    | ((_, none), cf1, w2) =>
      match S.Write b cf1 w2 with
      | ((_, some _), _, _) => none
      | ((_, none), cf2, w3) => some (S.Close cf2 w3).2.2

/-- What is stored holds the bytes `data`: a file has them as its bytes, an object has
their compressed form as its body and the encoding `gzip`. -/
def Backend.holds : (b : Backend) → b.Stored → List Byte → Prop
  | .fs _, x, data => x.data = data
  | .s3 gz _, x, data => x.Body = gz.compress data ∧ x.ContentEncoding = some gzipName

/-- The operations that persist do not fail: no file operation other than `Close` for the
filesystem store, the upload for the object store. -/
def Backend.reliable : (b : Backend) → b.World → Prop
  | .fs _, w => w.reliable
  | .s3 _ _, w => w.putErr = none

/-! ## Hexadecimal digits as the specification words them -/

/-- The lower-case hexadecimal digit of value `n`: `0`-`9` then `a`-`f`. -/
def hexChar (n : Nat) : Char := if n < 10 then Char.ofNat (48 + n) else Char.ofNat (87 + n)

/-! ## The content-type gate as the specification words it -/

/-- The text of a header value before its first `;` (the whole value when it has none). -/
def beforeSemicolon (h : Str) : Str := h.takeWhile (fun c => c ≠ ';')

/-- Two texts are equal when case is ignored: they have the same lower-case form. -/
def equalFold (tbl : Char → Char) (s t : Str) : Prop := ToLower tbl s = ToLower tbl t

/-- The content-type gate as the specification words it: the text of `h` before its first
`;`, compared case-insensitively, is one of `application/json`, `text/json`,
`application/javascript`. -/
def specJSONType (L : Stdlib) (h : Str) : Prop :=
  ∃ m ∈ jsonTypes, equalFold L.lowerTable (beforeSemicolon h) m

/-! ## Concrete inputs used in the examples -/

/-- A filesystem world with one file, `/c/a`, holding the bytes 1, 2 written at time 5; the
clock reads 100 and no operation fails. -/
def exampleFS : FSWorld where
  files := fun p => if p = "/c/a".data then some { data := [1, 2], modTime := 5 } else none
  now := 100
  fault := fun _ => none

/-- The world `exampleFS` with every file read failing with error 9. -/
def exampleFSReadFault : FSWorld :=
  { exampleFS with fault := fun op => if op = FSOp.Read then some (Error.other 9) else none }

/-- The world `exampleFS` with every file write failing with error 3. -/
def exampleFSWriteFault : FSWorld :=
  { exampleFS with fault := fun op => if op = FSOp.Write then some (Error.other 3) else none }

/-- A stand-in for `compress/gzip` that stores the bytes as they are. -/
def exampleGzip : Gzip where
  compress := fun b => b
  NewReader := fun b => some { rest := b, fin := none }
  unread := fun b => b

/-- An object-store world with no object, the clock at 100, and every upload failing with
error 5. -/
def exampleS3PutFault : S3World where
  objects := fun _ _ => none
  now := 100
  getErr := none
  putErr := some (Error.other 5)
  delErr := none

/-- A response with status 200, no header and the body 9. -/
def exampleResponse : Response := { StatusCode := 200, Header := [], Body := ([9], none) }

/-- A client that answers every request with `exampleResponse`. -/
def okClient : Request → Option Response × Option Error := fun _ => (some exampleResponse, none)

/-- Stand-ins for the library: a hash that is 20 zero bytes, a parser that refuses
everything, a dump that is the body, and no lower-casing outside ASCII. -/
def exampleLib : Stdlib where
  Sum := fun _ => ⟨List.replicate 20 0, rfl⟩
  parseResponse := fun _ => ParseStep.fail (Error.other 1)
  DumpResponse := fun res => res.Body
  lowerTable := fun c => c

/-- A POST request to `http://x/y`. -/
def examplePost : Request :=
  { Method := "POST".data, URL := "http://x/y".data, Header := [], Body := [] }

/-- A GET request to `http://x/y`. -/
def exampleGet : Request :=
  { Method := "GET".data, URL := "http://x/y".data, Header := [], Body := [] }

/-- The library `exampleLib` with a parser that accepts any non-empty input as
`exampleResponse`. -/
def exampleLibHit : Stdlib :=
  { exampleLib with
    parseResponse := fun bs => if bs = [] then ParseStep.more else ParseStep.done exampleResponse }

/-- A filesystem world in which the file for the key of `exampleGet` under the root `/c`
holds one byte. -/
def exampleFSCached : FSWorld where
  files := fun p =>
    if p = fsPath "/c".data (requestKey exampleLibHit exampleGet) then
      some { data := [9], modTime := 5 }
    else none
  now := 100
  fault := fun _ => none

/-- A response with status 200, the content type `Application/JSON; charset=utf-8` and a
body of two bytes. -/
def jsonResponse : Response :=
  { StatusCode := 200,
    Header := [("Content-Type".data, ["Application/JSON; charset=utf-8".data])],
    Body := ([4, 2], none) }

/-- A response with status 200, the content type `text/html` and a body of two bytes. -/
def htmlResponse : Response :=
  { StatusCode := 200, Header := [("Content-Type".data, ["text/html".data])],
    Body := ([4, 2], none) }

/-- A stand-in for `encoding/json` on a numeric target: decoding yields the number of
bytes. -/
def exampleJSON : JSON Nat where
  Unmarshal := fun data _ => (data.length, none)
  Marshal := fun _ => ([], none)

/-- A client that answers every request with `htmlResponse`. -/
def htmlClient : Request → Option Response × Option Error := fun _ => (some htmlResponse, none)

/-- A client that answers every request with `jsonResponse`. -/
def jsonClient : Request → Option Response × Option Error := fun _ => (some jsonResponse, none)

/-- A client that is never reached in the examples on `CacheFunc`. -/
def noClient : Request → Option Response × Option Error := fun _ => (none, some (Error.other 0))

/-! ## Lemmas on the engine -/

@[simp] theorem closeAndReturn_val {α W H : Type} (S : CacheStore W H) (cf : H) (w : W) (val : α)
    (err : Option Error) (tr : List Event) : (closeAndReturn S cf w val err tr).val = val := rfl

@[simp] theorem closeAndReturn_err {α W H : Type} (S : CacheStore W H) (cf : H) (w : W) (val : α)
    (err : Option Error) (tr : List Event) : (closeAndReturn S cf w val err tr).err = err := rfl

@[simp] theorem closeAndReturn_trace {α W H : Type} (S : CacheStore W H) (cf : H) (w : W)
    (val : α) (err : Option Error) (tr : List Event) :
    (closeAndReturn S cf w val err tr).trace = tr ++ [Event.Close] := rfl

@[simp] theorem closeAndReturn_world {α W H : Type} (S : CacheStore W H) (cf : H) (w : W)
    (val : α) (err : Option Error) (tr : List Event) :
    (closeAndReturn S cf w val err tr).world = (S.Close cf w).2.2 := rfl

/-- The producer's error ends `funcMiss` without a write. -/
theorem funcMiss_error {W H : Type} (S : CacheStore W H) (f : Unit → List Byte × Option Error)
    (cf : H) (w : W) (tr : List Event) (data : List Byte) (e : Error)
    (hf : f () = (data, some e)) :
    funcMiss S f cf w tr = closeAndReturn S cf w data (some e) (tr ++ [Event.Produce]) := by
  simp [funcMiss, hf]

/-- An invariant of the entry and the world that every `Read` keeps is kept by `ReadAll`. -/
theorem ReadAll_inv {W H : Type} (Read : Nat → H → W → ReadResult × H × W)
    (I : H → W → Prop) (hI : ∀ n cf w, I cf w → I (Read n cf w).2.1 (Read n cf w).2.2) :
    ∀ (fuel : Nat) (acc : List Byte) (cf : H) (w : W) (out : List Byte × Option Error)
      (cf2 : H) (w2 : W),
      I cf w → ReadAll Read fuel acc cf w = some (out, cf2, w2) → I cf2 w2 := by
  intro fuel
  induction fuel with
  | zero => intro acc cf w out cf2 w2 _ h; simp [ReadAll] at h
  | succ k ih =>
    intro acc cf w out cf2 w2 hi h
    have hstep := hI MinRead cf w hi
    rcases hr : Read MinRead cf w with ⟨r, cf1, w1⟩
    rw [hr] at hstep
    simp only [ReadAll, hr] at h
    split at h
    · exact absurd h (by simp)
    · split at h
      · simp only [Option.some.injEq, Prod.mk.injEq] at h
        obtain ⟨_, h1, h2⟩ := h
        subst h1 h2
        exact hstep
      · simp only [Option.some.injEq, Prod.mk.injEq] at h
        obtain ⟨_, h1, h2⟩ := h
        subst h1 h2
        exact hstep
      · exact ih _ _ _ _ _ _ hstep h

/-- An invariant of the entry and the world that every `Read` keeps is kept by
`ReadResponse`. -/
theorem ReadResponse_inv {W H : Type} (parse : List Byte → ParseStep)
    (Read : Nat → H → W → ReadResult × H × W)
    (I : H → W → Prop) (hI : ∀ n cf w, I cf w → I (Read n cf w).2.1 (Read n cf w).2.2) :
    ∀ (fuel : Nat) (acc : List Byte) (cf : H) (w : W) (out : Option Response)
      (cf2 : H) (w2 : W),
      I cf w → ReadResponse parse Read fuel acc cf w = some (out, cf2, w2) → I cf2 w2 := by
  intro fuel
  induction fuel with
  | zero => intro acc cf w out cf2 w2 _ h; simp [ReadResponse] at h
  | succ k ih =>
    intro acc cf w out cf2 w2 hi h
    have hstep := hI 4096 cf w hi
    rcases hr : Read 4096 cf w with ⟨r, cf1, w1⟩
    rw [hr] at hstep
    simp only [ReadResponse, hr] at h
    split at h
    · simp only [Option.some.injEq, Prod.mk.injEq] at h
      obtain ⟨_, h1, h2⟩ := h
      subst h1 h2
      exact hi
    · simp only [Option.some.injEq, Prod.mk.injEq] at h
      obtain ⟨_, h1, h2⟩ := h
      subst h1 h2
      exact hi
    · split at h
      · exact absurd h (by simp)
      · split at h
        · split at h
          · simp only [Option.some.injEq, Prod.mk.injEq] at h
            obtain ⟨_, h1, h2⟩ := h
            subst h1 h2
            exact hstep
          · simp only [Option.some.injEq, Prod.mk.injEq] at h
            obtain ⟨_, h1, h2⟩ := h
            subst h1 h2
            exact hstep
        · exact ih _ _ _ _ _ _ hstep h

/-! ## Lemmas on the two stores -/

/-- Opening an entry keeps everything that was stored and leaves no write pending. -/
theorem Backend.open_keeps (b : Backend) (name : Str) (cacheTime : Int) (w w1 : b.World)
    (cf : b.Entry) (hopen : b.store.Open name cacheTime w = (.ok cf, w1)) :
    (∀ k x, b.stored w k = some x → b.stored w1 k = some x) ∧ b.quiet cf := by
  cases b with
  | fs root =>
    refine ⟨?_, trivial⟩
    intro k x hk
    simp only [Backend.store, FSCacheStore, FSCacheStore.Open, OpenLocked] at hopen
    simp only [Backend.stored] at hk ⊢
    have key : ∀ (w2 : FSWorld), w2 = w ∨
        w2 = { w with files := setFile w.files (fsPath root name) (FileData.mk [] w.now) } ∧
          w.files (fsPath root name) = none →
        w2.files (fsPath root k) = some x := by
      intro w2 h2
      rcases h2 with h2 | ⟨h2, habs⟩
      · rw [h2]; exact hk
      · rw [h2]
        simp only [setFile]
        split
        · next heq => rw [heq, habs] at hk; exact absurd hk (by simp)
        · exact hk
    apply key
    revert hopen
    cases hfault : w.fault (FSOp.OpenLocked (fsPath root name)) with
    | some e => simp
    | none =>
      cases hfile : w.files (fsPath root name) with
      | some fd =>
        simp only []
        intro hopen
        left
        split at hopen
        · simp only [Prod.mk.injEq] at hopen; exact hopen.2.symm
        · split at hopen
          · simp only [Prod.mk.injEq] at hopen; exact hopen.2.symm
          · split at hopen
            · split at hopen <;> simp only [Prod.mk.injEq] at hopen
              · exact hopen.2.symm
              · exact absurd hopen.1 (by simp)
            · split at hopen
              · split at hopen <;> simp only [Prod.mk.injEq] at hopen <;> exact hopen.2.symm
              · simp only [Prod.mk.injEq] at hopen; exact hopen.2.symm
      | none =>
        simp only []
        intro hopen
        right
        refine ⟨?_, trivial⟩
        split at hopen
        · simp only [Prod.mk.injEq] at hopen; exact hopen.2.symm
        · split at hopen
          · simp only [Prod.mk.injEq] at hopen; exact hopen.2.symm
          · split at hopen
            · split at hopen <;> simp only [Prod.mk.injEq] at hopen
              · exact hopen.2.symm
              · exact absurd hopen.1 (by simp)
            · split at hopen
              · split at hopen <;> simp only [Prod.mk.injEq] at hopen <;> exact hopen.2.symm
              · simp only [Prod.mk.injEq] at hopen; exact hopen.2.symm
  | s3 gz bucket =>
    simp only [Backend.store, S3CacheStore, S3CacheStore.Open] at hopen
    split at hopen <;> simp only [Prod.mk.injEq, Except.ok.injEq] at hopen <;>
      obtain ⟨h1, h2⟩ := hopen <;> subst h1 h2 <;>
      exact ⟨fun k x hk => hk, rfl⟩

/-- A read changes nothing that is stored and leaves no write pending. -/
theorem Backend.read_keeps (b : Backend) (n : Nat) (cf : b.Entry) (w : b.World)
    (hq : b.quiet cf) :
    (b.store.Read n cf w).2.2 = w ∧ b.quiet (b.store.Read n cf w).2.1 := by
  cases b with
  | fs root =>
    refine ⟨?_, trivial⟩
    simp only [Backend.store, FSCacheStore, FSCacheFile.Read]
    split <;> rfl
  | s3 gz bucket =>
    simp only [Backend.store, S3CacheStore, S3CacheFile.Read]
    split
    · exact ⟨rfl, hq⟩
    · exact ⟨rfl, hq⟩

/-- Closing an entry with no write pending changes nothing that is stored. -/
theorem Backend.close_keeps (b : Backend) (cf : b.Entry) (w : b.World) (hq : b.quiet cf) :
    (b.store.Close cf w).2.2 = w := by
  cases b with
  | fs root => rfl
  | s3 gz bucket =>
    simp only [Backend.quiet] at hq
    simp only [Backend.store, S3CacheStore, S3CacheFile.Close, hq]

/-- Reading an entry to its end changes nothing that is stored and leaves no write pending. -/
theorem Backend.ReadAll_keeps (b : Backend) (fuel : Nat) (acc : List Byte) (cf cf2 : b.Entry)
    (w w2 : b.World) (out : List Byte × Option Error) (hq : b.quiet cf)
    (h : ReadAll b.store.Read fuel acc cf w = some (out, cf2, w2)) :
    w2 = w ∧ b.quiet cf2 := by
  refine ReadAll_inv b.store.Read (fun c v => v = w ∧ b.quiet c) ?_ fuel acc cf w out cf2 w2
    ⟨rfl, hq⟩ h
  intro n c v hi
  obtain ⟨hv, hc⟩ := hi
  subst hv
  exact b.read_keeps n c v hc

/-- Parsing a response out of an entry changes nothing that is stored and leaves no write
pending. -/
theorem Backend.ReadResponse_keeps (b : Backend) (parse : List Byte → ParseStep) (fuel : Nat)
    (acc : List Byte) (cf cf2 : b.Entry) (w w2 : b.World) (out : Option Response)
    (hq : b.quiet cf) (h : ReadResponse parse b.store.Read fuel acc cf w = some (out, cf2, w2)) :
    w2 = w ∧ b.quiet cf2 := by
  refine ReadResponse_inv parse b.store.Read (fun c v => v = w ∧ b.quiet c) ?_ fuel acc cf w out
    cf2 w2 ⟨rfl, hq⟩ h
  intro n c v hi
  obtain ⟨hv, hc⟩ := hi
  subst hv
  exact b.read_keeps n c v hc

/-! ## C1: a producer error is returned, nothing is written, the stored content stays -/

/-- C1. For each of the two stores, every name and every ttl: when `Open` succeeds, the
entry is not served from the cache (it is not valid, or reading it to the end fails) and
the producer returns the error `e`, `CacheFunc` returns the producer's bytes with `e`, the
calls it made contain no `Write`, and everything that was stored before the call (under
this name and under every other) is stored unchanged after it. -/
theorem CacheFunc_producer_error (b : Backend) (client : Request → Option Response × Option Error)
    (fuel : Nat) (f : Unit → List Byte × Option Error) (name : Str) (cacheTime : Int)
    (w w1 : b.World) (cf : b.Entry) (data : List Byte) (e : Error)
    (hopen : b.store.Open name cacheTime w = (.ok cf, w1))
    (hmiss : b.store.Valid cf = false ∨
      ∃ d e1 cf2 w2, ReadAll b.store.Read fuel [] cf w1 = some ((d, some e1), cf2, w2))
    (hf : f () = (data, some e)) :
    ∃ r, CacheFunc { store := b.store, client := client } fuel f name cacheTime w = some r ∧
      r.val = data ∧ r.err = some e ∧ (∀ d, Event.Write d ∉ r.trace) ∧
      Event.Produce ∈ r.trace ∧
      (∀ k x, b.stored w k = some x → b.stored r.world k = some x) := by
  obtain ⟨hst, hq⟩ := b.open_keeps name cacheTime w w1 cf hopen
  by_cases hv : b.store.Valid cf = true
  · rcases hmiss with hmiss | ⟨d, e1, cf2, w2, hread⟩
    · rw [hv] at hmiss; exact absurd hmiss (by simp)
    · obtain ⟨hw2, hq2⟩ := b.ReadAll_keeps fuel [] cf cf2 w1 w2 _ hq hread
      refine ⟨_, by simp only [CacheFunc, hopen, hv, if_true, hread]; rfl, ?_⟩
      rw [funcMiss_error _ f cf2 w2 _ data e hf]
      refine ⟨rfl, rfl, ?_, ?_, ?_⟩
      · intro d0; simp
      · simp
      · intro k x hk
        rw [closeAndReturn_world, b.close_keeps cf2 w2 hq2, hw2]
        exact hst k x hk
  · refine ⟨_, by simp only [CacheFunc, hopen, hv]; rfl, ?_⟩
    rw [funcMiss_error _ f cf w1 _ data e hf]
    refine ⟨rfl, rfl, ?_, ?_, ?_⟩
    · intro d0; simp
    · simp
    · intro k x hk
      rw [closeAndReturn_world, b.close_keeps cf w1 hq]
      exact hst k x hk

/-- C1 at a concrete input: the filesystem store rooted at `/c`, the name `a` holding two
bytes, ttl 0 (never valid) and a producer that fails with error 7. -/
theorem CacheFunc_producer_error_witness :
    ∃ r, CacheFunc { store := (Backend.fs "/c".data).store, client := noClient } 0
        (fun _ => ([], some (Error.other 7))) "a".data 0 exampleFS = some r ∧
      r.val = [] ∧ r.err = some (Error.other 7) ∧ (∀ d, Event.Write d ∉ r.trace) ∧
      Event.Produce ∈ r.trace ∧
      (∀ k x, (Backend.fs "/c".data).stored exampleFS k = some x →
        (Backend.fs "/c".data).stored r.world k = some x) :=
  CacheFunc_producer_error (Backend.fs "/c".data) noClient 0
    (fun _ => ([], some (Error.other 7))) "a".data 0 exampleFS exampleFS
    { f := { name := "/c/a".data, offset := 0 }, expired := true, reset := false }
    [] (Error.other 7) rfl (Or.inl rfl) rfl

/-! ## C2: the hit path and the soft miss -/

/-- C2. For every store: when `Open` succeeds and the entry is valid, then (hit) if reading
it to the end succeeds with bytes `d`, `CacheFunc` returns `(d, nil)` and the calls it made
contain neither the producer nor a `Write`; and (soft miss) if the read fails, `CacheFunc`
still returns, the producer is among the calls made, the returned bytes are the
producer's, and the returned error is the producer's error or, when the producer
succeeded, the error of the write: the read's error is not returned. -/
theorem CacheFunc_hit_or_soft_miss {W H : Type} (c : Cache W H) (fuel : Nat)
    (f : Unit → List Byte × Option Error) (name : Str) (cacheTime : Int) (w w1 : W) (cf : H)
    (hopen : c.store.Open name cacheTime w = (.ok cf, w1))
    (hvalid : c.store.Valid cf = true) :
    (∀ d cf2 w2, ReadAll c.store.Read fuel [] cf w1 = some ((d, none), cf2, w2) →
      ∃ r, CacheFunc c fuel f name cacheTime w = some r ∧ r.val = d ∧ r.err = none ∧
        Event.Produce ∉ r.trace ∧ ∀ x, Event.Write x ∉ r.trace) ∧
    (∀ d e cf2 w2, ReadAll c.store.Read fuel [] cf w1 = some ((d, some e), cf2, w2) →
      ∃ r, CacheFunc c fuel f name cacheTime w = some r ∧ Event.Produce ∈ r.trace ∧
        r.val = (f ()).1 ∧
        r.err = (match (f ()).2 with
          | some pe => some pe
          | none => (c.store.Write (f ()).1 cf2 w2).1.2)) := by
  constructor
  · intro d cf2 w2 hread
    refine ⟨_, by simp only [CacheFunc, hopen, hvalid, if_true, hread]; rfl, rfl, rfl, ?_, ?_⟩
    · simp
    · intro x; simp
  · intro d e cf2 w2 hread
    refine ⟨_, by simp only [CacheFunc, hopen, hvalid, if_true, hread]; rfl, ?_⟩
    rcases hf : f () with ⟨data, _ | pe⟩
    · rcases hw : c.store.Write data cf2 w2 with ⟨⟨n, _ | we⟩, cf3, w3⟩ <;>
        simp [funcMiss, hf, hw]
    · simp [funcMiss, hf]

/-- C2 at concrete inputs, on the filesystem store rooted at `/c` with ttl -1: the stored
bytes 1, 2 are returned without the producer being called; with file reads failing, the
producer's bytes 7 are returned with no error. -/
theorem CacheFunc_hit_or_soft_miss_witness :
    (∃ r, CacheFunc { store := FSCacheStore "/c".data, client := noClient } 2
        (fun _ => ([7], none)) "a".data (-1) exampleFS = some r ∧ r.val = [1, 2] ∧
        r.err = none ∧ Event.Produce ∉ r.trace ∧ ∀ x, Event.Write x ∉ r.trace) ∧
    (∃ r, CacheFunc { store := FSCacheStore "/c".data, client := noClient } 2
        (fun _ => ([7], none)) "a".data (-1) exampleFSReadFault = some r ∧
        Event.Produce ∈ r.trace ∧ r.val = [7] ∧ r.err = none) :=
  ⟨(CacheFunc_hit_or_soft_miss { store := FSCacheStore "/c".data, client := noClient } 2
      (fun _ => ([7], none)) "a".data (-1) exampleFS exampleFS
      { f := { name := "/c/a".data, offset := 0 }, expired := false, reset := false }
      (by rfl) rfl).1 [1, 2]
      { f := { name := "/c/a".data, offset := 2 }, expired := false, reset := false }
      exampleFS (by rfl),
   (CacheFunc_hit_or_soft_miss { store := FSCacheStore "/c".data, client := noClient } 2
      (fun _ => ([7], none)) "a".data (-1) exampleFSReadFault exampleFSReadFault
      { f := { name := "/c/a".data, offset := 0 }, expired := false, reset := false }
      (by rfl) rfl).2 [] (Error.other 9)
      { f := { name := "/c/a".data, offset := 0 }, expired := false, reset := false }
      exampleFSReadFault (by rfl)⟩

/-! ## C3: a failed write-back -/

/-- C3, as stated, fails on the object store: with every upload failing, the entry's `Write`
succeeds (it only buffers), the upload issued by `Close` returns error 5 and stores nothing,
and `CacheFunc` returns the producer's bytes with no error. -/
theorem CacheFunc_upload_error_not_returned :
    (S3CacheFile.Close exampleGzip
        { bucket := "b".data, key := "a".data, obj := none, r := none, w := some [1] }
        exampleS3PutFault).1 = some (Error.other 5) ∧
    ∃ r, CacheFunc { store := S3CacheStore exampleGzip "b".data, client := noClient } 0
        (fun _ => ([1], none)) "a".data 60 exampleS3PutFault = some r ∧
      r.val = [1] ∧ r.err = none ∧
      r.trace = [Event.Open "a".data 60, Event.Valid, Event.Produce, Event.Write [1],
        Event.Close] ∧
      r.world.objects "b".data "a".data = none :=
  ⟨rfl, _, rfl, rfl, rfl, rfl, rfl⟩

/-- C3, amended. For every store: on the miss path (the entry is not valid, or it is valid
and reading it failed) with the producer succeeding with bytes `d`, `CacheFunc` writes `d`
and returns `d` together with exactly the error of the entry's `Write`: that error when
`Write` fails, and no error when `Write` succeeds, whatever `Close` returns. -/
theorem CacheFunc_write_error {W H : Type} (c : Cache W H) (fuel : Nat)
    (f : Unit → List Byte × Option Error) (name : Str) (cacheTime : Int) (w w1 w2 : W)
    (cf cf2 : H) (d : List Byte)
    (hopen : c.store.Open name cacheTime w = (.ok cf, w1))
    (hmiss : (c.store.Valid cf = false ∧ cf2 = cf ∧ w2 = w1) ∨
      (c.store.Valid cf = true ∧
        ∃ x e, ReadAll c.store.Read fuel [] cf w1 = some ((x, some e), cf2, w2)))
    (hf : f () = (d, none)) :
    ∃ r, CacheFunc c fuel f name cacheTime w = some r ∧ r.val = d ∧
      Event.Write d ∈ r.trace ∧ r.err = (c.store.Write d cf2 w2).1.2 := by
  have hm : ∀ tr, (funcMiss c.store f cf2 w2 tr).val = d ∧
      Event.Write d ∈ (funcMiss c.store f cf2 w2 tr).trace ∧
      (funcMiss c.store f cf2 w2 tr).err = (c.store.Write d cf2 w2).1.2 := by
    intro tr
    rcases hw : c.store.Write d cf2 w2 with ⟨⟨n, _ | we⟩, cf3, w3⟩ <;>
      simp [funcMiss, hf, hw]
  rcases hmiss with ⟨hv, h1, h2⟩ | ⟨hv, x, e, hread⟩
  · subst h1 h2
    exact ⟨_, by simp only [CacheFunc, hopen, hv]; rfl, hm _⟩
  · exact ⟨_, by simp only [CacheFunc, hopen, hv, if_true, hread]; rfl, hm _⟩

/-- C3 amended, at a concrete input: on the filesystem store with file writes failing with
error 3, `CacheFunc` returns the producer's bytes 7 together with that error. -/
theorem CacheFunc_write_error_witness :
    ∃ r, CacheFunc { store := FSCacheStore "/c".data, client := noClient } 0
        (fun _ => ([7], none)) "a".data 0 exampleFSWriteFault = some r ∧ r.val = [7] ∧
      Event.Write [7] ∈ r.trace ∧ r.err = some (Error.other 3) :=
  CacheFunc_write_error { store := FSCacheStore "/c".data, client := noClient } 0
    (fun _ => ([7], none)) "a".data 0 exampleFSWriteFault exampleFSWriteFault exampleFSWriteFault
    { f := { name := "/c/a".data, offset := 0 }, expired := true, reset := false }
    { f := { name := "/c/a".data, offset := 0 }, expired := true, reset := false }
    [7] (by rfl) (Or.inl ⟨rfl, rfl, rfl⟩) rfl

/-! ## C4: what `CacheRequest` persists -/

/-- The live call of `CacheRequest` on an entry with no write pending: it returns unless
the client returns neither response nor error; a write happens only after a successful
call with method GET and status 200; and without a write the world is as before. -/
theorem requestLive_spec (b : Backend) (client : Request → Option Response × Option Error)
    (L : Stdlib) (req : Request) (cf : b.Entry) (w : b.World) (tr : List Event)
    (hq : b.quiet cf) (hc : client req ≠ (none, none)) (htr : ∀ d, Event.Write d ∉ tr) :
    ∃ r, requestLive { store := b.store, client := client } L req cf w tr = some r ∧
      (∀ d, Event.Write d ∈ r.trace →
        ∃ res, client req = (some res, none) ∧ req.Method = ['G', 'E', 'T'] ∧
          res.StatusCode = 200) ∧
      ((∀ d, Event.Write d ∉ r.trace) → r.world = w) := by
  have hclose := b.close_keeps cf w hq
  rcases hcl : client req with ⟨_ | res, _ | e⟩
  · exact absurd hcl hc
  · refine ⟨_, by simp only [requestLive, hcl]; rfl, ?_, ?_⟩
    · intro d hd
      simp only [closeAndReturn_trace, List.mem_append, List.mem_singleton, or_false,
        reduceCtorEq] at hd
      exact absurd hd (htr d)
    · intro _; simpa using hclose
  · by_cases hg : req.Method = ['G', 'E', 'T'] ∧ res.StatusCode = 200
    · rcases hdump : L.DumpResponse res with ⟨data, _ | de⟩
      · rcases hw : b.store.Write data cf w with ⟨⟨n, _ | we⟩, cf3, w3⟩
        · refine ⟨_, by simp only [requestLive, hcl, hg, and_self, if_true, hdump, hw]; rfl, ?_, ?_⟩
          · intro d _; exact ⟨res, rfl, hg.1, hg.2⟩
          · intro hno
            exact absurd (by simp) (hno data)
        · refine ⟨_, by simp only [requestLive, hcl, hg, and_self, if_true, hdump, hw]; rfl, ?_, ?_⟩
          · intro d _; exact ⟨res, rfl, hg.1, hg.2⟩
          · intro hno
            exact absurd (by simp) (hno data)
      · refine ⟨_, by simp only [requestLive, hcl, hg, and_self, if_true, hdump]; rfl, ?_, ?_⟩
        · intro d _; exact ⟨res, rfl, hg.1, hg.2⟩
        · intro _; simpa using hclose
    · refine ⟨_, by simp only [requestLive, hcl, hg, if_false]; rfl, ?_, ?_⟩
      · intro d hd
        simp only [closeAndReturn_trace, List.mem_append, List.mem_singleton, or_false,
          reduceCtorEq] at hd
        exact absurd hd (htr d)
      · intro _; simpa using hclose
  · refine ⟨_, by simp only [requestLive, hcl]; rfl, ?_, ?_⟩
    · intro d hd
      simp only [closeAndReturn_trace, List.mem_append, List.mem_singleton, or_false,
        reduceCtorEq] at hd
      exact absurd hd (htr d)
    · intro _; simpa using hclose

/-- C4. For each of the two stores, every request, ttl and client outcome: when `Open`
succeeds and the attempt to parse the cached response returns, `CacheRequest` returns, and
(1) a `Write` is among its calls only if the live call succeeded with a response, the
method is GET and the status is 200; (2) for a non-GET request, a transport error or a
response with status other than 200, no `Write` is among its calls and everything stored
before the call is stored unchanged after it. -/
theorem CacheRequest_persists_only_ok_GET (b : Backend)
    (client : Request → Option Response × Option Error) (L : Stdlib) (fuel : Nat)
    (req : Request) (cacheTime : Int) (w w1 : b.World) (cf : b.Entry)
    (hopen : b.store.Open (requestKey L req) cacheTime w = (.ok cf, w1))
    (hread : b.store.Valid cf = false ∨
      ∃ out cf2 w2, ReadResponse L.parseResponse b.store.Read fuel [] cf w1 = some (out, cf2, w2))
    (hc : client req ≠ (none, none)) :
    ∃ r, CacheRequest { store := b.store, client := client } L fuel req cacheTime w = some r ∧
      (∀ d, Event.Write d ∈ r.trace →
        ∃ res, client req = (some res, none) ∧ req.Method = ['G', 'E', 'T'] ∧
          res.StatusCode = 200) ∧
      ((req.Method ≠ ['G', 'E', 'T'] ∨ (client req).2 ≠ none ∨
          (∃ res, (client req).1 = some res ∧ res.StatusCode ≠ 200)) →
        (∀ d, Event.Write d ∉ r.trace) ∧
        ∀ k x, b.stored w k = some x → b.stored r.world k = some x) := by
  obtain ⟨hst, hq⟩ := b.open_keeps (requestKey L req) cacheTime w w1 cf hopen
  have core : ∃ r, CacheRequest { store := b.store, client := client } L fuel req cacheTime w
      = some r ∧
      (∀ d, Event.Write d ∈ r.trace →
        ∃ res, client req = (some res, none) ∧ req.Method = ['G', 'E', 'T'] ∧
          res.StatusCode = 200) ∧
      ((∀ d, Event.Write d ∉ r.trace) → r.world = w1) := by
    by_cases hv : b.store.Valid cf = true
    · rcases hread with hread | ⟨out, cf2, w2, hrr⟩
      · rw [hv] at hread; exact absurd hread (by simp)
      · obtain ⟨hw2, hq2⟩ := b.ReadResponse_keeps L.parseResponse fuel [] cf cf2 w1 w2 out hq hrr
        cases out with
        | some res =>
          refine ⟨_, by simp only [CacheRequest, hopen, hv, if_true, hrr]; rfl, ?_, ?_⟩
          · intro d hd; simp at hd
          · intro _; exact hw2
        | none =>
          obtain ⟨r, hr, h1, h2⟩ := requestLive_spec b client L req cf2 w2
            [Event.Open (requestKey L req) cacheTime, Event.Valid, Event.Read] hq2 hc
            (by intro d; simp)
          exact ⟨r, by simp only [CacheRequest, hopen, hv, if_true, hrr]; exact hr, h1,
            fun hno => (h2 hno).trans hw2⟩
    · obtain ⟨r, hr, h1, h2⟩ := requestLive_spec b client L req cf w1
        [Event.Open (requestKey L req) cacheTime, Event.Valid] hq hc (by intro d; simp)
      exact ⟨r, by simp only [CacheRequest, hopen, hv]; exact hr, h1, h2⟩
  obtain ⟨r, hr, h1, h2⟩ := core
  refine ⟨r, hr, h1, ?_⟩
  intro hbad
  have hno : ∀ d, Event.Write d ∉ r.trace := by
    intro d hd
    obtain ⟨res, hcl, hget, hok⟩ := h1 d hd
    rcases hbad with hb | hb | ⟨res2, hb1, hb2⟩
    · exact hb hget
    · rw [hcl] at hb; exact hb rfl
    · rw [hcl] at hb1
      simp only [Option.some.injEq] at hb1
      subst hb1
      exact hb2 hok
  refine ⟨hno, ?_⟩
  intro k x hk
  rw [h2 hno]
  exact hst k x hk

/-- C4 at a concrete input: a POST answered with status 200, on the filesystem store
rooted at `/c` with ttl 0: nothing is written and the file `/c/a` keeps its bytes. -/
theorem CacheRequest_persists_only_ok_GET_witness :
    ∃ r, CacheRequest { store := (Backend.fs "/c".data).store, client := okClient } exampleLib 0
        examplePost 0 exampleFS = some r ∧
      (∀ d, Event.Write d ∉ r.trace) ∧
      (Backend.fs "/c".data).stored r.world "a".data = some { data := [1, 2], modTime := 5 } := by
  obtain ⟨r, hr, _, h2⟩ := CacheRequest_persists_only_ok_GET (Backend.fs "/c".data) okClient
    exampleLib 0 examplePost 0 exampleFS
    (FSWorld.mk (setFile exampleFS.files (fsPath "/c".data (requestKey exampleLib examplePost))
      (FileData.mk [] 100)) exampleFS.now exampleFS.fault)
    { f := { name := fsPath "/c".data (requestKey exampleLib examplePost), offset := 0 },
      expired := true, reset := false }
    (by rfl) (Or.inl rfl) (by simp [okClient])
  exact ⟨r, hr, (h2 (Or.inl (by decide))).1, (h2 (Or.inl (by decide))).2 _ _ (by rfl)⟩

/-! ## C5: release of the entry -/

/-- Whenever `Open` succeeds and `CacheFunc` returns, `Close` was called exactly once. -/
theorem CacheFunc_closes_once {W H : Type} (c : Cache W H) (fuel : Nat)
    (f : Unit → List Byte × Option Error) (name : Str) (cacheTime : Int) (w w1 : W) (cf : H)
    (r : Ret (List Byte) W) (hopen : c.store.Open name cacheTime w = (.ok cf, w1))
    (hret : CacheFunc c fuel f name cacheTime w = some r) :
    r.trace.count Event.Close = 1 := by
  have hm : ∀ cf2 w2 tr, tr.count Event.Close = 0 →
      (funcMiss c.store f cf2 w2 tr).trace.count Event.Close = 1 := by
    intro cf2 w2 tr htr
    rcases hf : f () with ⟨data, _ | pe⟩
    · rcases hw : c.store.Write data cf2 w2 with ⟨⟨n, _ | we⟩, cf3, w3⟩ <;>
        simp [funcMiss, hf, hw, htr]
    · simp [funcMiss, hf, htr]
  simp only [CacheFunc, hopen] at hret
  split at hret
  · split at hret
    · exact absurd hret (by simp)
    · simp only [Option.some.injEq] at hret; subst hret; simp
    · simp only [Option.some.injEq] at hret; subst hret; exact hm _ _ _ (by simp)
  · simp only [Option.some.injEq] at hret; subst hret; exact hm _ _ _ (by simp)

/-- Whenever `Open` succeeds and `CacheFuncJSON` returns, `Close` was called exactly once. -/
theorem CacheFuncJSON_closes_once {W H τ : Type} (c : Cache W H) (J : JSON τ) (fuel : Nat)
    (f : τ → τ × Option Error) (obj : τ) (name : Str) (cacheTime : Int) (w w1 : W) (cf : H)
    (r : Ret τ W) (hopen : c.store.Open name cacheTime w = (.ok cf, w1))
    (hret : CacheFuncJSON c J fuel f obj name cacheTime w = some r) :
    r.trace.count Event.Close = 1 := by
  have hm : ∀ o cf2 w2 tr, tr.count Event.Close = 0 →
      (funcJSONMiss c.store J f o cf2 w2 tr).trace.count Event.Close = 1 := by
    intro o cf2 w2 tr htr
    rcases hf : f o with ⟨o1, _ | pe⟩
    · rcases hj : J.Marshal o1 with ⟨data, _ | me⟩
      · rcases hw : c.store.Write data cf2 w2 with ⟨⟨n, _ | we⟩, cf3, w3⟩ <;>
          simp [funcJSONMiss, hf, hj, hw, htr]
      · simp [funcJSONMiss, hf, hj, htr]
    · simp [funcJSONMiss, hf, htr]
  simp only [CacheFuncJSON, hopen] at hret
  split at hret
  · split at hret
    · exact absurd hret (by simp)
    · split at hret
      · simp only [Option.some.injEq] at hret; subst hret; simp
      · simp only [Option.some.injEq] at hret; subst hret; exact hm _ _ _ _ (by simp)
    · simp only [Option.some.injEq] at hret; subst hret; exact hm _ _ _ _ (by simp)
  · simp only [Option.some.injEq] at hret; subst hret; exact hm _ _ _ _ (by simp)

/-- Whenever the live call of `CacheRequest` returns, `Close` was called exactly once. -/
theorem requestLive_closes_once {W H : Type} (c : Cache W H) (L : Stdlib) (req : Request)
    (cf : H) (w : W) (tr : List Event) (r : Ret (Option Response) W)
    (htr : tr.count Event.Close = 0) (hret : requestLive c L req cf w tr = some r) :
    r.trace.count Event.Close = 1 := by
  simp only [requestLive] at hret
  split at hret
  · simp only [Option.some.injEq] at hret; subst hret; simp [htr]
  · split at hret
    · exact absurd hret (by simp)
    · simp only [Option.some.injEq] at hret; subst hret; simp [htr]
  · split at hret
    · split at hret
      · simp only [Option.some.injEq] at hret; subst hret; simp [htr]
      · split at hret <;> simp only [Option.some.injEq] at hret <;> subst hret <;> simp [htr]
    · simp only [Option.some.injEq] at hret; subst hret; simp [htr]

/-- C5 fails on the hit path of `CacheRequest`: on the filesystem store with ttl -1 and a
cached response under the request's key, `Open` succeeds, the cached response is returned
with no error, and `Close` is not among the calls made. -/
theorem CacheRequest_hit_never_closes :
    (∃ cf w1, (FSCacheStore "/c".data).Open (requestKey exampleLibHit exampleGet) (-1)
        exampleFSCached = (.ok cf, w1)) ∧
    ∃ r, CacheRequest { store := FSCacheStore "/c".data, client := okClient } exampleLibHit 2
        exampleGet (-1) exampleFSCached = some r ∧
      r.val = some exampleResponse ∧ r.err = none ∧
      r.trace = [Event.Open (requestKey exampleLibHit exampleGet) (-1), Event.Valid, Event.Read] ∧
      r.trace.count Event.Close = 0 :=
  ⟨⟨_, _, by rfl⟩, _, by rfl, by rfl, by rfl, by rfl, by rfl⟩

/-! ## C6: the staleness policy of the filesystem store -/

/-- What `FSCacheStore.Open` returns on success: the entry is on the file just opened, at
offset 0 and with no write yet, and its `expired` flag is as lines 59-80 set it. -/
theorem FSCacheStore.Open_ok (root key : Str) (ttl : Int) (w w1 : FSWorld) (cf : FSCacheFile)
    (hopen : FSCacheStore.Open root key ttl w = (.ok cf, w1)) :
    OpenLocked (fsPath root key) w = (.ok cf.f, w1) ∧ cf.reset = false ∧
    (ttl = 0 → cf.expired = true) ∧ (ttl < 0 → cf.expired = false) ∧
    (0 < ttl → ∀ s m, Stat cf.f w1 = .ok (s, m) →
      (cf.expired = false ↔ (0 < s ∧ m > w1.now + -1 * ttl))) := by
  simp only [FSCacheStore.Open] at hopen
  rcases hol : OpenLocked (fsPath root key) w with ⟨e | f, w2⟩
  · rw [hol] at hopen; simp at hopen
  · rw [hol] at hopen
    simp only at hopen
    by_cases h0 : ttl = 0
    · simp only [h0, if_true, Prod.mk.injEq, Except.ok.injEq] at hopen
      obtain ⟨h1, h2⟩ := hopen
      subst h1 h2
      exact ⟨rfl, rfl, fun _ => rfl, fun h => absurd h (by omega), fun h => absurd h (by omega)⟩
    · by_cases hneg : ttl < 0
      · simp only [h0, if_false, hneg, if_true, Prod.mk.injEq, Except.ok.injEq] at hopen
        obtain ⟨h1, h2⟩ := hopen
        subst h1 h2
        exact ⟨rfl, rfl, fun h => absurd h h0, fun _ => rfl, fun h => absurd h (by omega)⟩
      · simp only [h0, if_false, hneg] at hopen
        rcases hstat : Stat f w2 with e | ⟨s0, m0⟩
        · rw [hstat] at hopen
          simp only at hopen
          split at hopen
          · simp only [Prod.mk.injEq, Except.ok.injEq] at hopen
            obtain ⟨h1, h2⟩ := hopen
            subst h1 h2
            refine ⟨rfl, rfl, fun _ => rfl, fun h => absurd h hneg, ?_⟩
            intro _ s m hs
            simp only at hs
            rw [hstat] at hs
            exact absurd hs (by simp)
          · simp at hopen
        · rw [hstat] at hopen
          simp only at hopen
          by_cases hs0 : s0 > 0
          · by_cases hm0 : m0 > w2.now + -1 * ttl
            · simp only [hs0, hm0, if_true, Prod.mk.injEq, Except.ok.injEq] at hopen
              obtain ⟨h1, h2⟩ := hopen
              subst h1 h2
              refine ⟨rfl, rfl, fun h => absurd h h0, fun _ => rfl, ?_⟩
              intro _ s m hs
              simp only at hs
              rw [hstat] at hs
              simp only [Except.ok.injEq, Prod.mk.injEq] at hs
              obtain ⟨h3, h4⟩ := hs
              subst h3 h4
              simp only [true_iff]
              exact ⟨hs0, hm0⟩
            · simp only [hs0, hm0, if_true, if_false, Prod.mk.injEq, Except.ok.injEq] at hopen
              obtain ⟨h1, h2⟩ := hopen
              subst h1 h2
              refine ⟨rfl, rfl, fun _ => rfl, fun h => absurd h hneg, ?_⟩
              intro _ s m hs
              simp only at hs
              rw [hstat] at hs
              simp only [Except.ok.injEq, Prod.mk.injEq] at hs
              obtain ⟨h3, h4⟩ := hs
              subst h3 h4
              simp only [Bool.true_eq_false, false_iff, not_and]
              exact fun _ => hm0
          · simp only [hs0, if_false, Prod.mk.injEq, Except.ok.injEq] at hopen
            obtain ⟨h1, h2⟩ := hopen
            subst h1 h2
            refine ⟨rfl, rfl, fun _ => rfl, fun h => absurd h hneg, ?_⟩
            intro _ s m hs
            simp only at hs
            rw [hstat] at hs
            simp only [Except.ok.injEq, Prod.mk.injEq] at hs
            obtain ⟨h3, h4⟩ := hs
            subst h3 h4
            simp [hs0]

/-- C6. For every root, key and ttl on which `FSCacheStore.Open` succeeds, with the clock
`now` of the world at open time: the validity flag (`Valid`, the negation of `expired`) is
false when ttl is 0; true when ttl is negative, whatever the file holds (a file just
created empty included); and for a positive ttl, with `Stat` reporting size `s` and
modification time `m`, it is false when `s` is 0, true when `s` is positive and
`now - m < ttl`, and false when `now - m > ttl` (and also when `now - m = ttl`).  A `Read`
on an entry whose flag is false returns -1 and the error `CacheFileExpired`. -/
theorem FSCacheStore_staleness (root key : Str) (ttl : Int) (w w1 : FSWorld) (cf : FSCacheFile)
    (hopen : (FSCacheStore root).Open key ttl w = (.ok cf, w1)) :
    (FSCacheStore root).Valid cf = !cf.expired ∧
    (ttl = 0 → (FSCacheStore root).Valid cf = false) ∧
    (ttl < 0 → (FSCacheStore root).Valid cf = true) ∧
    (0 < ttl → ∀ s m, Stat cf.f w1 = .ok (s, m) →
      (s = 0 → (FSCacheStore root).Valid cf = false) ∧
      (0 < s → w1.now - m < ttl → (FSCacheStore root).Valid cf = true) ∧
      (w1.now - m > ttl → (FSCacheStore root).Valid cf = false) ∧
      (w1.now - m = ttl → (FSCacheStore root).Valid cf = false)) ∧
    ((FSCacheStore root).Valid cf = false →
      ∀ n v, ((FSCacheStore root).Read n cf v).1.n = -1 ∧
        ((FSCacheStore root).Read n cf v).1.err = some Error.CacheFileExpired) := by
  obtain ⟨_, _, hz, hn, hp⟩ := FSCacheStore.Open_ok root key ttl w w1 cf hopen
  have hval : ∀ bv : Bool, cf.expired = !bv → (FSCacheStore root).Valid cf = bv := by
    intro bv h
    simp [FSCacheStore, FSCacheFile.Valid, h]
  refine ⟨rfl, fun h => hval false (by simp [hz h]), fun h => hval true (by simp [hn h]), ?_, ?_⟩
  · intro hpos s m hs
    have hiff := hp hpos s m hs
    have hexp : ¬ (0 < s ∧ m > w1.now + -1 * ttl) → cf.expired = true := by
      intro hne
      cases hx : cf.expired with
      | true => rfl
      | false => exact absurd (hiff.mp hx) hne
    refine ⟨?_, ?_, ?_, ?_⟩
    · intro h; exact hval false (by simp [hexp (by omega)])
    · intro h1 h2; exact hval true (by simp [hiff.mpr ⟨h1, by omega⟩])
    · intro h; exact hval false (by simp [hexp (by omega)])
    · intro h; exact hval false (by simp [hexp (by omega)])
  · intro hv n v
    have hx : cf.expired = true := by
      simp only [FSCacheStore, FSCacheFile.Valid] at hv
      cases hx : cf.expired with
      | true => rfl
      | false => rw [hx] at hv; exact absurd hv (by simp)
    simp [FSCacheStore, FSCacheFile.Read, hx]

/-- C6 at a concrete input: with ttl -1 and no file under the key `zz`, `Open` creates the
file empty and the entry is valid. -/
theorem FSCacheStore_staleness_witness :
    (FSCacheStore "/c".data).Valid
      { f := { name := "/c/zz".data, offset := 0 }, expired := false, reset := false } = true ∧
    exampleFS.files "/c/zz".data = none :=
  ⟨(FSCacheStore_staleness "/c".data "zz".data (-1) exampleFS
      (FSWorld.mk (setFile exampleFS.files "/c/zz".data (FileData.mk [] 100)) 100 exampleFS.fault)
      { f := { name := "/c/zz".data, offset := 0 }, expired := false, reset := false }
      (by rfl)).2.2.1 (by decide), by rfl⟩

/-! ## C7: the round trip through the filesystem store -/

theorem FSCacheFile.Read_ok (n : Nat) (cf : FSCacheFile) (w : FSWorld)
    (hexp : cf.expired = false) (hfault : w.fault FSOp.Read = none) :
    FSCacheFile.Read n cf w =
      (if n = 0 then ({ n := 0, data := [], err := none }, cf, w)
       else if ((fileBytes cf.f w).drop cf.f.offset).take n = [] then
         ({ n := 0, data := [], err := some Error.EOF }, cf, w)
       else
         ({ n := (((fileBytes cf.f w).drop cf.f.offset).take n).length,
            data := ((fileBytes cf.f w).drop cf.f.offset).take n, err := none },
          { cf with f := { cf.f with
              offset := cf.f.offset + (((fileBytes cf.f w).drop cf.f.offset).take n).length } },
          w)) := by
  obtain ⟨f, ex, rs⟩ := cf
  simp only at hexp
  subst hexp
  simp only [FSCacheFile.Read, fileRead, hfault, Bool.false_eq_true, if_false]
  split_ifs <;> rfl

theorem FSCacheFile.ReadAll_ok :
    ∀ (fuel : Nat) (acc rest : List Byte) (cf : FSCacheFile) (w : FSWorld),
      cf.expired = false → w.fault FSOp.Read = none →
      (fileBytes cf.f w).drop cf.f.offset = rest →
      rest.length + MinRead ≤ fuel * MinRead →
      ∃ cf2, ReadAll FSCacheFile.Read fuel acc cf w = some ((acc ++ rest, none), cf2, w) := by
  intro fuel
  induction fuel with
  | zero =>
    intro acc rest cf w _ _ _ hlen
    simp [MinRead] at hlen
  | succ k ih =>
    intro acc rest cf w hexp hfault hrest hlen
    simp only [ReadAll, FSCacheFile.Read_ok MinRead cf w hexp hfault, hrest]
    have hmr : MinRead ≠ 0 := by decide
    simp only [hmr, if_false]
    by_cases hnil : rest.take MinRead = []
    · have hr : rest = [] := by
        cases rest with
        | nil => rfl
        | cons a t => simp [MinRead] at hnil
      subst hr
      refine ⟨cf, ?_⟩
      simp
    · simp only [hnil, if_false]
      have hpos : ¬ ((rest.take MinRead).length : Int) < 0 := by omega
      simp only [hpos, if_false]
      have hnext : (fileBytes cf.f w).drop (cf.f.offset + (rest.take MinRead).length)
          = rest.drop MinRead := by
        rw [← hrest, List.length_take, ← List.drop_drop]
        rcases Nat.le_total MinRead ((fileBytes cf.f w).drop cf.f.offset).length with h | h
        · rw [Nat.min_eq_left h]
        · rw [Nat.min_eq_right h, List.drop_of_length_le h, List.drop_of_length_le (le_refl _)]
      have hlen2 : (rest.drop MinRead).length + MinRead ≤ k * MinRead := by
        have hne : rest ≠ [] := by
          intro h; apply hnil; rw [h]; rfl
        have hp : 0 < rest.length := List.length_pos.mpr hne
        rw [List.length_drop]
        rw [Nat.succ_mul] at hlen
        have hk : 0 < k := by
          rcases Nat.eq_zero_or_pos k with h0 | h0
          · subst h0
            rw [Nat.zero_mul, Nat.zero_add] at hlen; omega
          · exact h0
        have : MinRead ≤ k * MinRead := Nat.le_mul_of_pos_left _ hk
        omega
      obtain ⟨cf2, h2⟩ := ih (acc ++ rest.take MinRead) (rest.drop MinRead)
        { cf with f := { cf.f with offset := cf.f.offset + (rest.take MinRead).length } } w
        hexp hfault hnext hlen2
      refine ⟨cf2, ?_⟩
      rw [h2, List.append_assoc, List.take_append_drop]
/-- In a world where the operations do not fail, `OpenLocked` succeeds at offset 0, the
file exists afterwards, and clock and faults are as before. -/
theorem OpenLocked_reliable (p : Str) (w : FSWorld) (hrel : w.reliable) :
    ∃ w1 fd, OpenLocked p w = (.ok { name := p, offset := 0 }, w1) ∧ w1.files p = some fd ∧
      w1.now = w.now ∧ w1.fault = w.fault ∧ (∀ fd0, w.files p = some fd0 → w1 = w) := by
  have hf : w.fault (FSOp.OpenLocked p) = none := hrel _ (by simp)
  cases hfile : w.files p with
  | some fd =>
    exact ⟨w, fd, by simp [OpenLocked, hf, hfile], hfile, rfl, rfl, fun _ _ => rfl⟩
  | none =>
    refine ⟨FSWorld.mk (setFile w.files p (FileData.mk [] w.now)) w.now w.fault,
      FileData.mk [] w.now, by simp only [OpenLocked, hf, hfile], ?_, rfl, rfl, ?_⟩
    · simp [setFile]
    · intro fd0 h; simp at h

/-- In a world where the operations do not fail, `FSCacheStore.Open` succeeds. -/
theorem FSCacheStore.Open_reliable (root key : Str) (ttl : Int) (w : FSWorld)
    (hrel : w.reliable) :
    ∃ cf w1, FSCacheStore.Open root key ttl w = (.ok cf, w1) := by
  obtain ⟨w1, fd, hol, hfile, hnow, hfault, _⟩ := OpenLocked_reliable (fsPath root key) w hrel
  have hs : w1.fault FSOp.Stat = none := by rw [hfault]; exact hrel _ (by simp)
  simp only [FSCacheStore.Open, hol, Stat, hs, hfile]
  split_ifs <;> exact ⟨_, _, rfl⟩

/-- The first write of a session, with the operations not failing: the file holds exactly
the written bytes, stamped with the time of the write. -/
theorem FSCacheFile.Write_first (d : List Byte) (cf : FSCacheFile) (w : FSWorld)
    (hrel : w.reliable) (hreset : cf.reset = false) :
    ∃ n cf1 w1, FSCacheFile.Write d cf w = ((n, none), cf1, w1) ∧
      w1.files cf.f.name = some { data := d, modTime := w.now } ∧ w1.fault = w.fault ∧
      cf1.reset = true ∧ cf1.f = { name := cf.f.name, offset := d.length } := by
  have h1 : w.fault FSOp.Seek = none := hrel _ (by simp)
  have h2 : w.fault FSOp.Truncate = none := hrel _ (by simp)
  have h3 : w.fault FSOp.Write = none := hrel _ (by simp)
  simp only [FSCacheFile.Write, hreset, h1, h2, fileWrite, h3]
  by_cases hd : d = []
  · subst hd
    refine ⟨0, { f := { name := cf.f.name, offset := 0 }, expired := cf.expired, reset := true },
      FSWorld.mk (setFile w.files cf.f.name (FileData.mk [] w.now)) w.now w.fault, ?_, ?_, rfl,
      rfl, rfl⟩
    · simp
    · simp [setFile]
  · refine ⟨d.length,
      { f := { name := cf.f.name, offset := d.length }, expired := cf.expired, reset := true },
      FSWorld.mk (setFile (setFile w.files cf.f.name (FileData.mk [] w.now)) cf.f.name
        (FileData.mk d w.now)) w.now w.fault, ?_, ?_, rfl, rfl, rfl⟩
    · simp [hd, writeAt, fileBytes, setFile]
    · simp [setFile]
/-- Setting the clock keeps the world free of failures. -/
theorem FSWorld.reliable_atTime (w : FSWorld) (t : Int) (hrel : w.reliable) :
    (w.atTime t).reliable := hrel

/-- A session in a world where the operations do not fail: it completes, and the file of
the key then holds exactly the written bytes, stamped with the time of the write. -/
theorem fsWriteSession_spec (root key : Str) (ttl0 topen t0 tclose : Int) (d : List Byte)
    (w : FSWorld) (hrel : w.reliable) :
    ∃ wc, fsWriteSession root key ttl0 topen t0 tclose d w = some wc ∧
      wc.files (fsPath root key) = some { data := d, modTime := t0 } ∧ wc.reliable := by
  obtain ⟨cf0, wa, hopen⟩ := FSCacheStore.Open_reliable root key ttl0 (w.atTime topen) hrel
  obtain ⟨hol, hreset, _⟩ := FSCacheStore.Open_ok root key ttl0 _ wa cf0 hopen
  obtain ⟨w1, fd, hol2, _, _, hfault, _⟩ :=
    OpenLocked_reliable (fsPath root key) (w.atTime topen) hrel
  rw [hol] at hol2
  simp only [Prod.mk.injEq, Except.ok.injEq] at hol2
  obtain ⟨hf, hw⟩ := hol2
  subst hw
  have hrela : (wa.atTime t0).reliable := by
    intro op hop
    show wa.fault op = none
    rw [hfault]
    exact hrel op hop
  obtain ⟨n, cf1, wb, hwrite, hfile, hfb, _, _⟩ :=
    FSCacheFile.Write_first d cf0 (wa.atTime t0) hrela hreset
  refine ⟨wb.atTime tclose, ?_, ?_, ?_⟩
  · have ho : (FSCacheStore root).Open key ttl0 (w.atTime topen) = (.ok cf0, wa) := hopen
    have hwr : (FSCacheStore root).Write d cf0 (wa.atTime t0) = ((n, none), cf1, wb) := hwrite
    simp only [fsWriteSession, ho, hwr]
    rfl
  · rw [hf] at hfile
    exact hfile
  · intro op hop
    show wb.fault op = none
    rw [hfb]
    exact hrela op hop

/-- C7, amended. Filesystem store round trip: for every non-empty byte sequence `d`, every
prior state of the files (a longer file under the key included), every ttl of the writing
session and every ttl > 0 of the probe, in a world where the file operations do not fail:
a session that opens the key, writes `d` once at time `t0` and closes, followed by a fresh
`Open(key, ttl)` at a time `t1 < t0 + ttl`, yields an entry with `Valid() = true` whose
read to the end of file returns exactly `d`. -/
theorem FSCacheStore_round_trip (root key : Str) (ttl0 ttl topen t0 tclose t1 : Int)
    (d : List Byte) (w : FSWorld) (fuel : Nat)
    (hrel : w.reliable) (hd : d ≠ []) (httl : 0 < ttl) (ht : t1 < t0 + ttl)
    (hfuel : d.length + MinRead ≤ fuel * MinRead) :
    ∃ wc cf w2 cf3, fsWriteSession root key ttl0 topen t0 tclose d w = some wc ∧
      (FSCacheStore root).Open key ttl (wc.atTime t1) = (.ok cf, w2) ∧
      (FSCacheStore root).Valid cf = true ∧
      ReadAll (FSCacheStore root).Read fuel [] cf w2 = some ((d, none), cf3, w2) := by
  obtain ⟨wc, hsess, hfile, hrelc⟩ := fsWriteSession_spec root key ttl0 topen t0 tclose d w hrel
  obtain ⟨cf, w2, hopen⟩ := FSCacheStore.Open_reliable root key ttl (wc.atTime t1) hrelc
  obtain ⟨hol, _, _, _, hexp⟩ := FSCacheStore.Open_ok root key ttl _ w2 cf hopen
  obtain ⟨w1, fd, hol2, _, _, _, hsame⟩ :=
    OpenLocked_reliable (fsPath root key) (wc.atTime t1) hrelc
  rw [hol] at hol2
  simp only [Prod.mk.injEq, Except.ok.injEq] at hol2
  obtain ⟨hf, hw⟩ := hol2
  subst hw
  have hw2 : w2 = wc.atTime t1 := hsame _ hfile
  have hfile2 : w2.files cf.f.name = some { data := d, modTime := t0 } := by
    rw [hw2, hf]; exact hfile
  have hstat : Stat cf.f w2 = .ok (d.length, t0) := by
    have hs : w2.fault FSOp.Stat = none := by rw [hw2]; exact hrelc _ (by simp)
    simp [Stat, hs, hfile2]
  have hnow : w2.now = t1 := by rw [hw2]; rfl
  have hvalid : cf.expired = false :=
    (hexp httl _ _ hstat).mpr ⟨List.length_pos.mpr hd, by rw [hnow]; omega⟩
  have hread : w2.fault FSOp.Read = none := by rw [hw2]; exact hrelc _ (by simp)
  have hrest : (fileBytes cf.f w2).drop cf.f.offset = d := by
    rw [hf] at hfile2
    simp [fileBytes, hfile2, hf]
  obtain ⟨cf3, h3⟩ := FSCacheFile.ReadAll_ok fuel [] d cf w2 hvalid hread hrest hfuel
  refine ⟨wc, cf, w2, cf3, hsess, hopen, ?_, ?_⟩
  · simp [FSCacheStore, FSCacheFile.Valid, hvalid]
  · simpa using h3

/-- C7, as stated, fails for the empty byte sequence: after a session that writes no bytes
at time 100, a fresh `Open` with ttl 60 at time 101 yields an entry that is not valid and
whose `Read` fails with `CacheFileExpired`. -/
theorem FSCacheStore_round_trip_empty :
    ∃ wc cf w2, fsWriteSession "/c".data "a".data 60 100 100 100 [] exampleFS = some wc ∧
      (FSCacheStore "/c".data).Open "a".data 60 (wc.atTime 101) = (.ok cf, w2) ∧
      (101 : Int) < 100 + 60 ∧
      (FSCacheStore "/c".data).Valid cf = false ∧
      ((FSCacheStore "/c".data).Read MinRead cf w2).1.err = some Error.CacheFileExpired ∧
      ReadAll (FSCacheStore "/c".data).Read 2 [] cf w2 = none :=
  ⟨_, _, _, by rfl, by rfl, by decide, by rfl, by rfl, by rfl⟩

/-- C7 amended, at a concrete input: the byte 7 written at time 100 over the two bytes that
`/c/a` held, and read back with ttl 60 at time 159. -/
theorem FSCacheStore_round_trip_witness :
    ∃ wc cf w2 cf3, fsWriteSession "/c".data "a".data 0 100 100 100 [7] exampleFS = some wc ∧
      (FSCacheStore "/c".data).Open "a".data 60 (wc.atTime 159) = (.ok cf, w2) ∧
      (FSCacheStore "/c".data).Valid cf = true ∧
      ReadAll (FSCacheStore "/c".data).Read 2 [] cf w2 = some (([7], none), cf3, w2) :=
  FSCacheStore_round_trip "/c".data "a".data 0 60 100 100 100 159 [7] exampleFS 2
    (fun _ _ => rfl) (by decide) (by decide) (by decide) (by decide)
/-! ## C8: a second write in a session -/

/-- A later write of a session (`reset` already set) at the end of the file, with the
operations not failing: the bytes are appended. -/
theorem FSCacheFile.Write_later (b : List Byte) (cf : FSCacheFile) (w : FSWorld) (fd : FileData)
    (hrel : w.reliable) (hreset : cf.reset = true) (hfile : w.files cf.f.name = some fd)
    (hoff : cf.f.offset = fd.data.length) :
    ∃ n cf1 w1 m, FSCacheFile.Write b cf w = ((n, none), cf1, w1) ∧
      w1.files cf.f.name = some { data := fd.data ++ b, modTime := m } := by
  have h3 : w.fault FSOp.Write = none := hrel _ (by simp)
  obtain ⟨f, ex, rs⟩ := cf
  simp only at hreset hfile hoff
  subst hreset
  simp only [FSCacheFile.Write, fileWrite, h3]
  by_cases hb : b = []
  · subst hb
    exact ⟨0, ⟨f, ex, true⟩, w, fd.modTime, by simp, by simp [hfile]⟩
  · refine ⟨b.length, ⟨{ f with offset := f.offset + b.length }, ex, true⟩,
      FSWorld.mk (setFile w.files f.name
        (FileData.mk (writeAt (fileBytes f w) f.offset b) w.now)) w.now w.fault,
      w.now, by simp [hb], ?_⟩
    simp [setFile, writeAt, fileBytes, hfile, hoff]

/-- C8, amended. For each of the two stores and every pair of byte sequences `a` and `b`,
in a world where the persisting operations do not fail: a session that opens an entry,
calls `Write(a)` and then `Write(b)`, and closes, completes, and what is then stored under
the key holds `a` followed by `b` (the second write appends; the first write discarded
what was stored before). -/
theorem writeTwice_appends (b : Backend) (key : Str) (ttl : Int) (x y : List Byte)
    (w : b.World) (hrel : b.reliable w) :
    ∃ w1 st, writeTwice b.store key ttl x y w = some w1 ∧ b.stored w1 key = some st ∧
      b.holds st (x ++ y) := by
  cases b with
  | fs root =>
    obtain ⟨cf0, wa, hopen⟩ := FSCacheStore.Open_reliable root key ttl w hrel
    obtain ⟨hol, hreset, _⟩ := FSCacheStore.Open_ok root key ttl _ wa cf0 hopen
    obtain ⟨w1, fd, hol2, _, _, hfault, _⟩ := OpenLocked_reliable (fsPath root key) w hrel
    rw [hol] at hol2
    simp only [Prod.mk.injEq, Except.ok.injEq] at hol2
    obtain ⟨hf, hw⟩ := hol2
    subst hw
    have hrela : wa.reliable := by
      intro op hop
      rw [hfault]
      exact hrel op hop
    obtain ⟨n, cf1, wb, hwrite, hfile, hfb, hreset1, hf1⟩ :=
      FSCacheFile.Write_first x cf0 wa hrela hreset
    have hrelb : wb.reliable := by
      intro op hop
      rw [hfb]
      exact hrela op hop
    have hname : cf1.f.name = cf0.f.name := by rw [hf1]
    obtain ⟨n2, cf2, wc, m, hwrite2, hfile2⟩ :=
      FSCacheFile.Write_later y cf1 wb { data := x, modTime := wa.now } hrelb hreset1
        (by rw [hname]; exact hfile) (by rw [hf1])
    refine ⟨wc, { data := x ++ y, modTime := m }, ?_, ?_, rfl⟩
    · have ho : (Backend.fs root).store.Open key ttl w = (.ok cf0, wa) := hopen
      have h1 : (Backend.fs root).store.Write x cf0 wa = ((n, none), cf1, wb) := hwrite
      have h2 : (Backend.fs root).store.Write y cf1 wb = ((n2, none), cf2, wc) := hwrite2
      simp only [writeTwice, ho, h1, h2]
      rfl
    · rw [hname, hf] at hfile2
      exact hfile2
  | s3 gz bucket =>
    have hput : w.putErr = none := hrel
    refine ⟨(PutObject w bucket key (gz.compress (x ++ y)) gzipName).2,
      { Body := gz.compress (x ++ y), ContentEncoding := some gzipName, LastModified := w.now },
      ?_, ?_, rfl, rfl⟩
    · simp only [writeTwice, Backend.store, S3CacheStore, S3CacheStore.Open]
      rcases GetObject w bucket key (if ttl ≥ 0 then some (w.now + -1 * ttl) else none)
        with e | res <;> simp [S3CacheFile.Write, S3CacheFile.Close]
    · simp [Backend.stored, PutObject, hput]

/-- C8, as stated, fails: on the filesystem store, `Write` of the byte 1 followed by
`Write` of the byte 2 in one session leaves the bytes 1, 2 under the key, not the byte 2. -/
theorem writeTwice_not_overwrite :
    ∃ w1 m, writeTwice (FSCacheStore "/c".data) "a".data 0 [1] [2] exampleFS = some w1 ∧
      w1.files "/c/a".data = some { data := [1, 2], modTime := m } ∧
      w1.files "/c/a".data ≠ some { data := [2], modTime := m } :=
  ⟨_, 100, by rfl, by rfl, by decide⟩

/-- C8 amended, at a concrete input: the object store with a stand-in compression, the
bytes 1 and 2, 3 written in one session. -/
theorem writeTwice_appends_witness :
    ∃ w1 st, writeTwice (Backend.s3 exampleGzip "b".data).store "a".data 60 [1] [2, 3]
        { exampleS3PutFault with putErr := none } = some w1 ∧
      (Backend.s3 exampleGzip "b".data).stored w1 "a".data = some st ∧
      (Backend.s3 exampleGzip "b".data).holds st ([1] ++ [2, 3]) :=
  writeTwice_appends (Backend.s3 exampleGzip "b".data) "a".data 60 [1] [2, 3]
    { exampleS3PutFault with putErr := none } rfl

/-! ## C9: the content-type gate of `CacheRequestJSON` -/

theorem Split_head (h : Str) : (Split ';' h).headD [] = beforeSemicolon h := by
  induction h with
  | nil => rfl
  | cons c t ih =>
    by_cases hc : c = ';'
    · simp [Split, beforeSemicolon, hc]
    · simp only [Split, hc, if_false, beforeSemicolon, List.takeWhile, ne_eq, not_false_eq_true,
        decide_True]
      cases hs : Split ';' t with
      | nil => simp [hs, beforeSemicolon] at ih ⊢; exact ih
      | cons a r => simp [hs, beforeSemicolon] at ih ⊢; exact ih

theorem ToLower_jsonTypes (tbl : Char → Char) : ∀ m ∈ jsonTypes, ToLower tbl m = m := by
  intro m hm
  simp only [jsonTypes, List.mem_cons, List.mem_singleton, List.not_mem_nil, or_false] at hm
  rcases hm with h | h | h <;> subst h <;> rfl

/-- The test of line 174 accepts exactly the header values the specification describes. -/
theorem contentType_iff_spec (L : Stdlib) (h : Str) :
    contentType L h ∈ jsonTypes ↔ specJSONType L h := by
  simp only [contentType, Split_head, specJSONType, equalFold]
  constructor
  · intro hm
    exact ⟨_, hm, (ToLower_jsonTypes L.lowerTable _ hm).symm⟩
  · rintro ⟨m, hm, he⟩
    rw [he, ToLower_jsonTypes L.lowerTable m hm]
    exact hm

/-- C9. For every response `res` that `CacheRequest` returns without error, with `h` the
value of its `Content-Type` header: `CacheRequestJSON` returns, and if the text of `h`
before its first `;`, compared case-insensitively, is one of `application/json`,
`text/json`, `application/javascript`, the body is read and, once read, decoded into the
target (the result is that of `json.Unmarshal` on the body and the target; a failed read
of the body returns its error with the target as it was); for every other `h` nothing is
read or decoded, the error is `NotJSONData` and the target is as it was. -/
theorem CacheRequestJSON_content_type_gate {W H τ : Type} (c : Cache W H) (L : Stdlib)
    (J : JSON τ) (fuel : Nat) (req : Request) (obj : τ) (cacheTime : Int) (w : W)
    (rr : Ret (Option Response) W) (res : Response)
    (hreq : CacheRequest c L fuel req cacheTime w = some rr)
    (herr : rr.err = none) (hres : rr.val = some res) :
    ∃ r, CacheRequestJSON c L J fuel req obj cacheTime w = some r ∧
      (specJSONType L (HeaderGet res.Header "Content-Type".data) →
        (∀ data, res.Body = (data, none) →
          (r.val, r.err) = J.Unmarshal data obj ∧
          r.trace = rr.trace ++ [Event.ReadBody, Event.Unmarshal data, Event.BodyClose]) ∧
        (∀ data e, res.Body = (data, some e) →
          r.val = obj ∧ r.err = some e ∧
          r.trace = rr.trace ++ [Event.ReadBody, Event.BodyClose])) ∧
      (¬ specJSONType L (HeaderGet res.Header "Content-Type".data) →
        r.val = obj ∧ r.err = some Error.NotJSONData ∧
        r.trace = rr.trace ++ [Event.BodyClose]) := by
  by_cases hspec : specJSONType L (HeaderGet res.Header "Content-Type".data)
  · have hct := (contentType_iff_spec L _).mpr hspec
    rcases hbody : res.Body with ⟨data, _ | be⟩
    · rcases hun : J.Unmarshal data obj with ⟨obj1, ue⟩
      refine ⟨{ val := obj1, err := ue, world := rr.world,
                trace := rr.trace ++ [Event.ReadBody, Event.Unmarshal data] ++ [Event.BodyClose] },
        ?_, ?_, fun h => absurd hspec h⟩
      · simp [CacheRequestJSON, hreq, requestJSONTail, herr, hres, hct, hbody, hun]
      · intro _
        refine ⟨?_, ?_⟩
        · intro d hd
          simp only [Prod.mk.injEq] at hd
          obtain ⟨hd, _⟩ := hd
          subst hd
          simp [hun]
        · intro d e hd
          simp at hd
    · refine ⟨{ val := obj, err := some be, world := rr.world,
                trace := rr.trace ++ [Event.ReadBody] ++ [Event.BodyClose] },
        ?_, ?_, fun h => absurd hspec h⟩
      · simp [CacheRequestJSON, hreq, requestJSONTail, herr, hres, hct, hbody]
      · intro _
        refine ⟨?_, ?_⟩
        · intro d hd
          simp at hd
        · intro d e hd
          simp only [Prod.mk.injEq, Option.some.injEq] at hd
          obtain ⟨_, hd⟩ := hd
          subst hd
          simp
  · have hct : ¬ contentType L (HeaderGet res.Header "Content-Type".data) ∈ jsonTypes :=
      fun h => hspec ((contentType_iff_spec L _).mp h)
    refine ⟨{ val := obj, err := some Error.NotJSONData, world := rr.world,
              trace := rr.trace ++ [Event.BodyClose] }, ?_, fun h => absurd h hspec,
      fun _ => ⟨rfl, rfl, rfl⟩⟩
    simp [CacheRequestJSON, hreq, requestJSONTail, herr, hres, hct]

/-- C9 at a concrete input: the content type `Application/JSON; charset=utf-8` is accepted
and the body of two bytes is decoded into the target. -/
theorem CacheRequestJSON_content_type_gate_witness :
    ∃ r, CacheRequestJSON { store := FSCacheStore "/c".data, client := jsonClient } exampleLib
        exampleJSON 0 exampleGet 0 0 exampleFS = some r ∧
      r.val = 2 ∧ r.err = none ∧ Event.Unmarshal [4, 2] ∈ r.trace := by
  obtain ⟨r, hr, hyes, _⟩ := CacheRequestJSON_content_type_gate
    { store := FSCacheStore "/c".data, client := jsonClient } exampleLib exampleJSON 0 exampleGet
    0 0 exampleFS
    (closeAndReturn (FSCacheStore "/c".data)
      (FSCacheFile.Write [4, 2]
        { f := { name := fsPath "/c".data (requestKey exampleLib exampleGet), offset := 0 },
          expired := true, reset := false }
        (OpenLocked (fsPath "/c".data (requestKey exampleLib exampleGet)) exampleFS).2).2.1
      (FSCacheFile.Write [4, 2]
        { f := { name := fsPath "/c".data (requestKey exampleLib exampleGet), offset := 0 },
          expired := true, reset := false }
        (OpenLocked (fsPath "/c".data (requestKey exampleLib exampleGet)) exampleFS).2).2.2
      (some jsonResponse) none
      [Event.Open (requestKey exampleLib exampleGet) 0, Event.Valid, Event.Do, Event.Write [4, 2]])
    jsonResponse (by rfl) rfl rfl
  have hs : specJSONType exampleLib (HeaderGet jsonResponse.Header "Content-Type".data) :=
    ⟨"application/json".data, by simp [jsonTypes], by rfl⟩
  obtain ⟨h1, h2⟩ := (hyes hs).1 [4, 2] rfl
  refine ⟨r, hr, ?_, ?_, ?_⟩
  · have := congrArg Prod.fst h1; simpa [exampleJSON] using this
  · have := congrArg Prod.snd h1; simpa [exampleJSON] using this
  · rw [h2]; simp

/-- The content type `text/html` is refused: `CacheRequestJSON` returns `NotJSONData` and
the target keeps its value 0. -/
theorem CacheRequestJSON_html_refused :
    ∃ r, CacheRequestJSON { store := FSCacheStore "/c".data, client := htmlClient } exampleLib
        exampleJSON 0 exampleGet 0 0 exampleFS = some r ∧
      r.val = 0 ∧ r.err = some Error.NotJSONData ∧ ∀ d, Event.Unmarshal d ∉ r.trace :=
  ⟨_, by rfl, by rfl, by rfl, by
    intro d hd
    have : Event.Unmarshal d ∈ [Event.Open (requestKey exampleLib exampleGet) 0, Event.Valid,
      Event.Do, Event.Write [4, 2], Event.Close, Event.BodyClose] := hd
    simp at this⟩

/-- Every output of `hexDigit` on a nibble is a character of `hextable`. -/
theorem hexDigit_mem (n : Nat) (h : n < 16) : hexDigit n ∈ hextable := by
  interval_cases n <;> decide

theorem EncodeToString_length (bs : List Byte) : (EncodeToString bs).length = 2 * bs.length := by
  induction bs with
  | nil => rfl
  | cons b t ih => simp only [EncodeToString, List.length_cons, ih]; omega

theorem EncodeToString_hex (bs : List Byte) : ∀ c ∈ EncodeToString bs, c ∈ hextable := by
  induction bs with
  | nil => intro c hc; simp [EncodeToString] at hc
  | cons b t ih =>
    intro c hc
    simp only [EncodeToString, List.mem_cons] at hc
    rcases hc with hc | hc | hc
    · rw [hc]; exact hexDigit_mem _ (by have := b.isLt; omega)
    · rw [hc]; exact hexDigit_mem _ (Nat.mod_lt _ (by decide))
    · exact ih c hc

theorem Split_no_sep (sep : Char) (a : Str) (h : sep ∉ a) : Split sep a = [a] := by
  induction a with
  | nil => rfl
  | cons c t ih =>
    simp only [List.mem_cons, not_or] at h
    have hc : c ≠ sep := fun e => h.1 e.symm
    simp [Split, hc, ih h.2]

theorem Split_append_sep (sep : Char) (a rest : Str) (h : sep ∉ a) :
    Split sep (a ++ sep :: rest) = a :: Split sep rest := by
  induction a with
  | nil => simp [Split]
  | cons c t ih =>
    simp only [List.mem_cons, not_or] at h
    have hc : c ≠ sep := fun e => h.1 e.symm
    simp [Split, hc, ih h.2]

theorem filter_ne_sep (sep : Char) (a : Str) (h : sep ∉ a) :
    a.filter (fun c => c ≠ sep) = a := by
  apply List.filter_eq_self.mpr
  intro c hc
  simp only [ne_eq, decide_eq_true_eq]
  intro e
  exact h (e ▸ hc)

/-- The table `hextable` holds the lower-case hexadecimal digits in order. -/
theorem hexDigit_eq_hexChar : ∀ n < 16, hexDigit n = hexChar n := by decide

/-- Distinct nibbles have distinct digits. -/
theorem hexDigit_inj : ∀ n < 16, ∀ m < 16, hexDigit n = hexDigit m → n = m := by decide

/-- The hex text determines the bytes. -/
theorem EncodeToString_injective :
    ∀ a b : List Byte, EncodeToString a = EncodeToString b → a = b := by
  intro a
  induction a with
  | nil =>
    intro b h
    cases b with
    | nil => rfl
    | cons y t => simp [EncodeToString] at h
  | cons x s ih =>
    intro b h
    cases b with
    | nil => simp [EncodeToString] at h
    | cons y t =>
      simp only [EncodeToString, List.cons.injEq] at h
      obtain ⟨h1, h2, h3⟩ := h
      have hx := x.isLt
      have hy := y.isLt
      have e1 := hexDigit_inj _ (by omega) _ (by omega) h1
      have e2 := hexDigit_inj _ (Nat.mod_lt _ (by decide)) _ (Nat.mod_lt _ (by decide)) h2
      have : x = y := Fin.ext (by omega)
      rw [this, ih t h3]

/-- Byte `i` is written at positions `2i` (high nibble) and `2i + 1` (low nibble). -/
theorem EncodeToString_digits :
    ∀ (bs : List Byte) (i : Nat), i < bs.length →
      (EncodeToString bs).getD (2 * i) '0' = hexChar ((bs.getD i 0).val / 16) ∧
      (EncodeToString bs).getD (2 * i + 1) '0' = hexChar ((bs.getD i 0).val % 16) := by
  intro bs
  induction bs with
  | nil => intro i hi; simp at hi
  | cons b t ih =>
    intro i hi
    cases i with
    | zero =>
      simp only [EncodeToString, Nat.mul_zero, List.getD_cons_zero, Nat.zero_add,
        List.getD_cons_succ]
      exact ⟨hexDigit_eq_hexChar _ (by have := b.isLt; omega),
        hexDigit_eq_hexChar _ (Nat.mod_lt _ (by decide))⟩
    | succ k =>
      have hk : k < t.length := by simpa using hi
      have e1 : 2 * (k + 1) = (2 * k + 1) + 1 := by omega
      rw [e1]
      simp only [EncodeToString, List.getD_cons_succ]
      exact ih k hk

/-- The function `path.Join` on three non-empty elements without `/` and `.`: the elements
joined by `/`. -/
theorem Join_three (a b c : Str) (ha : a ≠ []) (hb : b ≠ []) (hc : c ≠ [])
    (hs : ∀ x ∈ a ++ b ++ c, x ≠ '/' ∧ x ≠ '.') :
    Join [a, b, c] = a ++ '/' :: (b ++ '/' :: c) := by
  have hsa : ∀ x ∈ a, x ≠ '/' ∧ x ≠ '.' := fun x hx => hs x (by simp [hx])
  have hsb : ∀ x ∈ b, x ≠ '/' ∧ x ≠ '.' := fun x hx => hs x (by simp [hx])
  have hsc : ∀ x ∈ c, x ≠ '/' ∧ x ≠ '.' := fun x hx => hs x (by simp [hx])
  have na : '/' ∉ a := fun h => (hsa _ h).1 rfl
  have nb : '/' ∉ b := fun h => (hsb _ h).1 rfl
  have nc : '/' ∉ c := fun h => (hsc _ h).1 rfl
  have nodot : ∀ s : Str, s ≠ [] → (∀ x ∈ s, x ≠ '/' ∧ x ≠ '.') →
      s ≠ ['.'] ∧ s ≠ ['.', '.'] := by
    intro s _ hss
    constructor
    · intro e; subst e; exact (hss '.' (by simp)).2 rfl
    · intro e; subst e; exact (hss '.' (by simp)).2 rfl
  obtain ⟨da, dda⟩ := nodot a ha hsa
  obtain ⟨db, ddb⟩ := nodot b hb hsb
  obtain ⟨dc, ddc⟩ := nodot c hc hsc
  have hsplit : Split '/' (a ++ '/' :: (b ++ '/' :: c)) = [a, b, c] := by
    rw [Split_append_sep _ _ _ na, Split_append_sep _ _ _ nb, Split_no_sep _ _ nc]
  have hhead : (a ++ '/' :: (b ++ '/' :: c)).head? ≠ some '/' := by
    cases a with
    | nil => exact absurd rfl ha
    | cons x t =>
      simp only [List.cons_append, List.head?_cons, ne_eq, Option.some.injEq]
      exact (hsa x (by simp)).1
  have hne : a ++ '/' :: (b ++ '/' :: c) ≠ [] := by simp
  simp only [Join, List.filter, ha, hb, hc, ne_eq, not_false_eq_true, decide_True, joinSlash,
    Clean, hne, if_false, hsplit, da, db, dc, and_self, hhead, decide_False, Bool.false_eq_true,
    List.foldl, cleanStep, dda, ddb, ddc, List.reverse_cons, List.reverse_nil, List.nil_append,
    List.cons_append, reduceCtorEq]
/-! ## C10: the key of a request -/

/-- The shape of the key of a request, with `h` the hex text of the hash of
`METHOD + " " + URL`: length and alphabet of `h`, the key as three slices of `h` joined by
`/`, its three segments, and `h` recovered by removing the slashes. -/
theorem requestKey_parts (L : Stdlib) (req : Request) :
    (EncodeToString (L.Sum (req.Method ++ ' ' :: req.URL)).val).length = 40 ∧
    (∀ c ∈ EncodeToString (L.Sum (req.Method ++ ' ' :: req.URL)).val, c ∈ hextable) ∧
    requestKey L req =
      (EncodeToString (L.Sum (req.Method ++ ' ' :: req.URL)).val).take 2 ++ '/' ::
        (((EncodeToString (L.Sum (req.Method ++ ' ' :: req.URL)).val).drop 2).take 2 ++ '/' ::
          ((EncodeToString (L.Sum (req.Method ++ ' ' :: req.URL)).val).drop 4).take 36) ∧
    (∃ s1 s2 s3, Split '/' (requestKey L req) = [s1, s2, s3] ∧
      s1.length = 2 ∧ s2.length = 2 ∧ s3.length = 36 ∧
      ∀ c ∈ s1 ++ s2 ++ s3, c ∈ hextable) ∧
    (requestKey L req).filter (fun c => c ≠ '/') =
      EncodeToString (L.Sum (req.Method ++ ' ' :: req.URL)).val ∧
    (∀ req2 : Request, req2.Method = req.Method → req2.URL = req.URL →
      requestKey L req2 = requestKey L req) := by
  generalize hh : EncodeToString (L.Sum (req.Method ++ ' ' :: req.URL)).val = h
  have hlen : h.length = 40 := by
    rw [← hh, EncodeToString_length, (L.Sum _).property]
  have hhex : ∀ c ∈ h, c ∈ hextable := by
    rw [← hh]; exact EncodeToString_hex _
  have hnot : ∀ c ∈ h, c ≠ '/' ∧ c ≠ '.' := by
    intro c hc
    have := hhex c hc
    constructor <;> (intro e; subst e; revert this; decide)
  have h1 : (h.take 2).length = 2 := by rw [List.length_take]; omega
  have h2 : ((h.drop 2).take 2).length = 2 := by
    rw [List.length_take, List.length_drop]; omega
  have h3 : (h.drop 4).length = 36 := by rw [List.length_drop]; omega
  have h36 : (h.drop 4).take 36 = h.drop 4 := List.take_of_length_le (by omega)
  have m1 : ∀ c ∈ h.take 2, c ∈ h := fun c hc => List.mem_of_mem_take hc
  have m2 : ∀ c ∈ (h.drop 2).take 2, c ∈ h :=
    fun c hc => List.mem_of_mem_drop (List.mem_of_mem_take hc)
  have m3 : ∀ c ∈ h.drop 4, c ∈ h := fun c hc => List.mem_of_mem_drop hc
  have mall : ∀ c ∈ h.take 2 ++ (h.drop 2).take 2 ++ h.drop 4, c ∈ h := by
    intro c hc
    simp only [List.mem_append] at hc
    rcases hc with (hc | hc) | hc
    · exact m1 c hc
    · exact m2 c hc
    · exact m3 c hc
  have hkey : requestKey L req = h.take 2 ++ '/' :: ((h.drop 2).take 2 ++ '/' :: h.drop 4) := by
    simp only [requestKey, hh]
    exact Join_three _ _ _ (by intro e; rw [e] at h1; simp at h1)
      (by intro e; rw [e] at h2; simp at h2) (by intro e; rw [e] at h3; simp at h3)
      (fun c hc => hnot c (mall c hc))
  have n1 : '/' ∉ h.take 2 := fun hc => (hnot _ (m1 _ hc)).1 rfl
  have n2 : '/' ∉ (h.drop 2).take 2 := fun hc => (hnot _ (m2 _ hc)).1 rfl
  have n3 : '/' ∉ h.drop 4 := fun hc => (hnot _ (m3 _ hc)).1 rfl
  have hparts : h.take 2 ++ ((h.drop 2).take 2 ++ h.drop 4) = h := by
    have e : h.drop 4 = (h.drop 2).drop 2 := by rw [List.drop_drop]
    rw [e, List.take_append_drop, List.take_append_drop]
  refine ⟨hlen, hhex, by rw [hkey, h36], ?_, ?_, ?_⟩
  · refine ⟨h.take 2, (h.drop 2).take 2, h.drop 4, ?_, h1, h2, h3, fun c hc => hhex c (mall c hc)⟩
    rw [hkey, Split_append_sep _ _ _ n1, Split_append_sep _ _ _ n2, Split_no_sep _ _ n3]
  · rw [hkey]
    simp only [List.filter_append, List.filter_cons, ne_eq, not_true_eq_false, decide_False,
      Bool.false_eq_true, if_false]
    rw [filter_ne_sep _ _ n1, filter_ne_sep _ _ n2, filter_ne_sep _ _ n3]
    exact hparts
  · intro req2 hm hu
    simp only [requestKey, hm, hu]

/-- C10. For every request, with `h` the text `hex.EncodeToString` gives for the 20-byte
hash of `METHOD + " " + URL`: (1) `h` has 40 characters and, for each `i < 20`, its
characters `2i` and `2i + 1` are the lower-case hexadecimal digits of the high and the low
nibble of byte `i` of the hash; (2) the key is `h[0:2] + "/" + h[2:4] + "/" + h[4:40]`;
(3) split at `/` it has exactly three segments, of lengths 2, 2 and 36, made of hex digits;
(4) removing the slashes gives back `h`; (5) two requests have the same key exactly when
their hashes are equal, so in particular when method and URL agree, whatever headers and
body; (6) this key is the name `CacheRequest` passes to `Open`: it is the first call of
every return, and an error of `Open` on this key is what `CacheRequest` returns. -/
theorem requestKey_shape (L : Stdlib) (req : Request) :
    ((EncodeToString (L.Sum (req.Method ++ ' ' :: req.URL)).val).length = 40 ∧
      ∀ i < 20,
        (EncodeToString (L.Sum (req.Method ++ ' ' :: req.URL)).val).getD (2 * i) '0' =
          hexChar (((L.Sum (req.Method ++ ' ' :: req.URL)).val.getD i 0).val / 16) ∧
        (EncodeToString (L.Sum (req.Method ++ ' ' :: req.URL)).val).getD (2 * i + 1) '0' =
          hexChar (((L.Sum (req.Method ++ ' ' :: req.URL)).val.getD i 0).val % 16)) ∧
    requestKey L req =
      (EncodeToString (L.Sum (req.Method ++ ' ' :: req.URL)).val).take 2 ++ '/' ::
        (((EncodeToString (L.Sum (req.Method ++ ' ' :: req.URL)).val).drop 2).take 2 ++ '/' ::
          ((EncodeToString (L.Sum (req.Method ++ ' ' :: req.URL)).val).drop 4).take 36) ∧
    (∃ s1 s2 s3, Split '/' (requestKey L req) = [s1, s2, s3] ∧
      s1.length = 2 ∧ s2.length = 2 ∧ s3.length = 36 ∧
      ∀ c ∈ s1 ++ s2 ++ s3, c ∈ "0123456789abcdef".data) ∧
    (requestKey L req).filter (fun c => c ≠ '/') =
      EncodeToString (L.Sum (req.Method ++ ' ' :: req.URL)).val ∧
    (∀ req2 : Request,
      (requestKey L req2 = requestKey L req ↔
        L.Sum (req2.Method ++ ' ' :: req2.URL) = L.Sum (req.Method ++ ' ' :: req.URL)) ∧
      (req2.Method = req.Method → req2.URL = req.URL →
        requestKey L req2 = requestKey L req)) ∧
    (∀ (W H : Type) (c : Cache W H) (fuel : Nat) (cacheTime : Int) (w : W),
      (∀ r, CacheRequest c L fuel req cacheTime w = some r →
        r.trace.head? = some (Event.Open (requestKey L req) cacheTime)) ∧
      (∀ e w1, c.store.Open (requestKey L req) cacheTime w = (.error e, w1) →
        ∃ r, CacheRequest c L fuel req cacheTime w = some r ∧ r.val = none ∧
          r.err = some e)) := by
  obtain ⟨hlen, hhex, hkey, hseg, hfilt, _⟩ := requestKey_parts L req
  refine ⟨⟨hlen, ?_⟩, hkey, ?_, hfilt, ?_, ?_⟩
  · intro i hi
    exact EncodeToString_digits _ i (by rw [(L.Sum _).property]; exact hi)
  · obtain ⟨s1, s2, s3, h1, h2, h3, h4, h5⟩ := hseg
    exact ⟨s1, s2, s3, h1, h2, h3, h4, h5⟩
  · intro req2
    obtain ⟨_, _, _, _, hfilt2, _⟩ := requestKey_parts L req2
    refine ⟨⟨?_, ?_⟩, ?_⟩
    · intro hk
      have he : EncodeToString (L.Sum (req2.Method ++ ' ' :: req2.URL)).val =
          EncodeToString (L.Sum (req.Method ++ ' ' :: req.URL)).val := by
        rw [← hfilt2, ← hfilt, hk]
      exact Subtype.ext (EncodeToString_injective _ _ he)
    · intro hs
      simp only [requestKey, hs]
    · intro hm hu
      simp only [requestKey, hm, hu]
  · intro W H c fuel cacheTime w
    constructor
    · intro r hr
      have hl : ∀ cf w0 tr (r0 : Ret (Option Response) W),
          requestLive c L req cf w0 tr = some r0 → ∃ t, r0.trace = tr ++ t := by
        intro cf w0 tr r0 h0
        simp only [requestLive] at h0
        split at h0
        · simp only [Option.some.injEq] at h0; subst h0; exact ⟨_, List.append_assoc _ _ _⟩
        · split at h0
          · exact absurd h0 (by simp)
          · simp only [Option.some.injEq] at h0; subst h0
            exact ⟨_, List.append_assoc _ _ _⟩
        · split at h0
          · split at h0
            · simp only [Option.some.injEq] at h0; subst h0
              exact ⟨_, List.append_assoc _ _ _⟩
            · split at h0 <;> simp only [Option.some.injEq] at h0 <;> subst h0 <;>
                exact ⟨_, List.append_assoc _ _ _⟩
          · simp only [Option.some.injEq] at h0; subst h0
            exact ⟨_, List.append_assoc _ _ _⟩
      simp only [CacheRequest] at hr
      split at hr
      · simp only [Option.some.injEq] at hr; subst hr; rfl
      · split at hr
        · split at hr
          · exact absurd hr (by simp)
          · simp only [Option.some.injEq] at hr; subst hr; rfl
          · obtain ⟨t, ht⟩ := hl _ _ _ _ hr
            rw [ht]; rfl
        · obtain ⟨t, ht⟩ := hl _ _ _ _ hr
          rw [ht]; rfl
    · intro e w1 hopen
      exact ⟨{ val := none, err := some e, world := w1,
               trace := [Event.Open (requestKey L req) cacheTime] },
        by simp only [CacheRequest, hopen], rfl, rfl⟩

end GoCache
